import Mathlib

/-!
Verification development for the king-and-rook-vs-king endgame engine
(`ajedrez_mejorado.py`).  The file contains four near-duplicate program
variants; we embed, for each claim, the variant(s) the claim cites:

* V1  (module-level functions of the first program: `evaluate_board`,
  `evaluate_move`, `minimax`, `get_ai_move` with the mate-in-one fast path);
* Solver (the `ChessEndgameSolver` class of the second program, with the
  transposition table);
* V3  (the third program: white-rook evaluator, stalemate scored -500,
  `get_ai_move` without the fast path and without a time budget).

The chess rules engine (python-chess) is an external collaborator, consumed
and not reimplemented (spec §1, §6).  We therefore embed a position as the
record of the oracle answers the engine code actually reads
(side to move, piece squares, terminal-state predicates), and the rules
engine as a structure of functions (`Engine`): legal-move enumeration, move
application, and the two move predicates the code queries.  Concrete engines
(a real KRvK move generator, and small synthetic engines) instantiate the
structure where counterexamples and witnesses need evaluable inputs.

Python `float` scores are embedded as `WithBot (WithTop ℤ)` (the heuristic
evaluators of V1/V3 only produce integers) resp. `WithBot (WithTop ℚ)` for
the solver, so that `float('-inf')`/`float('inf')`/`math.inf` are `⊥`/`⊤`
and comparisons agree with IEEE comparisons on these values.  The move
ordering keys of `evaluate_move` contain halves (`3.5 - file`), hence `ℚ`.
-/

namespace KRK

/-- Scores handled by the V1/V3 minimax: integers produced by the evaluator
together with the sentinels `float('-inf') = ⊥` and `float('inf') = ⊤`. -/
abbrev Score := WithBot (WithTop ℤ)

/-- Scores handled by the solver: rationals with `-math.inf = ⊥`, `math.inf = ⊤`. -/
abbrev SScore := WithBot (WithTop ℚ)

/-- Embed an integer evaluator output into `Score`. -/
def zScore (z : ℤ) : Score := ((z : WithTop ℤ) : Score)

/-- Embed a rational evaluator output into `SScore`. -/
def qScore (q : ℚ) : SScore := ((q : WithTop ℚ) : SScore)

/-- A move as the engine code reads it: from-square and to-square
(0..63, python-chess numbering, a1 = 0). -/
structure Move where
  fromSq : Nat
  toSq : Nat
deriving DecidableEq, Repr

/-- Piece kinds occurring in this endgame. -/
inductive PieceType where
  | king
  | rook
deriving DecidableEq, Repr

/-- A piece: colour (`true` = white, as in python-chess) and kind. -/
structure Piece where
  color : Bool
  ptype : PieceType
deriving DecidableEq, Repr

/-- A position, embedded as the record of the rules-oracle answers the
engine code reads: side to move, the piece squares, and the terminal-state
predicates (`is_check`, `is_checkmate`, `is_stalemate`,
`is_insufficient_material`, `can_claim_draw`, `is_game_over`), each an
independent oracle answer of the external rules engine. -/
structure Board where
  turn : Bool
  whiteKing : Nat
  blackKing : Nat
  whiteRook : Option Nat
  blackRook : Option Nat
  check : Bool
  checkmate : Bool
  stalemate : Bool
  insufficientMaterial : Bool
  canClaimDraw : Bool
  gameOver : Bool
deriving DecidableEq, Repr

/-- The external rules engine (spec §6): legal-move enumeration, move
application, and the two move predicates the move orderer queries. -/
structure Engine where
  legalMoves : Board → List Move
  push : Board → Move → Board
  isCapture : Board → Move → Bool
  isCastling : Board → Move → Bool

/-- The `board.piece_at(square)` query, derived from the piece squares. -/
def pieceAt (b : Board) (sq : Nat) : Option Piece :=
  if b.whiteKing = sq then some ⟨true, PieceType.king⟩
  else if b.blackKing = sq then some ⟨false, PieceType.king⟩
  else if b.whiteRook = some sq then some ⟨true, PieceType.rook⟩
  else if b.blackRook = some sq then some ⟨false, PieceType.rook⟩
  else none

/-- `chess.square_file`, as an integer for evaluator arithmetic. -/
def sqFile (sq : Nat) : ℤ := (sq % 8 : ℕ)

/-- `chess.square_rank`, as an integer for evaluator arithmetic. -/
def sqRank (sq : Nat) : ℤ := (sq / 8 : ℕ)

/-- The scan `for square in chess.SQUARES: ... break` looking for the first
rook of a given colour (V1 lines 101-105, V3 lines 699-703). -/
def findRook (b : Board) (color : Bool) : Option Nat :=
  (List.range 64).find? (fun sq =>
    match pieceAt b sq with
    | some p => decide (p.color = color) && decide (p.ptype = PieceType.rook)
    | none => false)

namespace V1

/-- V1 `evaluate_board` (lines 90-138): black-rook profile, score reported
for the side to move (negated when White is to move).  Note the Python
falsiness test `if not black_rook:` also fires when the rook stands on
square 0 (a1), which we reproduce. -/
def evaluate_board (b : Board) : ℤ :=
  if b.checkmate then (if b.turn then 10000 else -10000)
  else if b.stalemate then 0
  else
    match findRook b false with
    | none => 0
    | some br =>
      if br = 0 then 0
      else
        let wk := b.whiteKing
        let bk := b.blackKing
        let dist_rook := max |sqFile wk - sqFile br| |sqRank wk - sqRank br|
        let dist_kings := max |sqFile wk - sqFile bk| |sqRank wk - sqRank bk|
        let e1 : ℤ := if b.check then (if b.turn = false then 50 else -30) else 0
        let edge_dist := min (min (sqFile wk) (7 - sqFile wk)) (min (sqRank wk) (7 - sqRank wk))
        let e2 := e1 + (4 - edge_dist) * 15
        let e3 :=
          if sqFile wk = sqFile br ∨ sqRank wk = sqRank br then
            (if 1 < dist_rook then e2 + 20 + 10 else e2 + 20)
          else e2
        let e4 := if dist_kings ≤ 1 then e3 - 30 else e3
        let e5 :=
          if (|sqFile wk - sqFile bk| = 2 ∧ sqRank wk = sqRank bk) ∨
             (|sqRank wk - sqRank bk| = 2 ∧ sqFile wk = sqFile bk) then e4 + 25
          else e4
        if b.turn = false then e5 else -e5

/-- The `max(abs(3.5 - file), abs(3.5 - rank))` distance to the board
centre used by the move orderers. -/
def center_distance (sq : Nat) : ℚ :=
  max |(3.5 : ℚ) - ((sq % 8 : ℕ) : ℚ)| |(3.5 : ℚ) - ((sq / 8 : ℕ) : ℚ)|

/-- V1 `evaluate_move` (lines 140-162), as the value it returns: the board
queries are made on the pushed board `e.push b m` (the source pushes `m`
first, queries, then pops; `is_capture`/`is_castling` are likewise queried
on the pushed board). -/
def evaluate_move (e : Engine) (b : Board) (m : Move) : ℚ :=
  let b2 := e.push b m
  let s0 : ℚ :=
    if b2.checkmate then 10000
    else if b2.check then 50
    else if e.isCapture b2 m then 30
    else 0
  let s1 := if e.isCastling b2 m then s0 + 40 else s0
  if b2.turn = false then
    match pieceAt b2 m.toSq with
    | some p => if p.ptype = PieceType.king then s1 + (15 - center_distance m.toSq * 3) else s1
    | none => s1
  else s1

end V1

/-- Insert an element into a sorted list, after every element it does not
strictly precede: the insertion step of a stable sort. -/
def stableInsert (le : ℚ × Move → ℚ × Move → Bool) (x : ℚ × Move) :
    List (ℚ × Move) → List (ℚ × Move)
  | [] => [x]
  | y :: ys => if le y x then y :: stableInsert le x ys else x :: y :: ys

/-- Stable sort: insert the elements into an accumulator in their original
order, each landing after the elements equal to it. -/
def stableSort (le : ℚ × Move → ℚ × Move → Bool) (l : List (ℚ × Move)) :
    List (ℚ × Move) :=
  l.foldl (fun acc x => stableInsert le x acc) []

/-- Python `list.sort(key=..., reverse=maximizing_player)`: a stable sort of
the key-decorated moves, ascending for the minimizing side, descending for
the maximizing side.  CPython's timsort is stable, and `reverse=True` keeps
equal keys in their original relative order (the list is reversed before
and after the ascending sort); any stable sort computes the same list, and
we use a stable insertion sort. -/
def pySortKeyed (maxP : Bool) (l : List (ℚ × Move)) : List (ℚ × Move) :=
  if maxP then stableSort (fun a b => decide (b.1 ≤ a.1)) l
  else stableSort (fun a b => decide (a.1 ≤ b.1)) l

/-- The ordered legal-move list used by `minimax`: decorate each legal move
with its `evaluate_move` key, sort, strip the keys. -/
def orderedMoves (e : Engine) (evm : Board → Move → ℚ) (maxP : Bool) (b : Board) : List Move :=
  (pySortKeyed maxP ((e.legalMoves b).map (fun m => (evm b m, m)))).map (fun km => km.2)

/-- The maximizing loop of `minimax` (V1 lines 173-185): strict improvement
updates the best pair, `alpha = max(alpha, eval)`, break when
`beta <= alpha`.  The break happens after the update, so a cutoff returns
the updated pair, exactly as in the source. -/
def maxLoop (e : Engine) (f : Board → Score → Score → Score) (b : Board) :
    List Move → Score → Option Move → Score → Score → Score × Option Move
  | [], best, bm, _, _ => (best, bm)
  | m :: rest, best, bm, alpha, beta =>
    let v := f (e.push b m) alpha beta
    let best2 := if best < v then v else best
    let bm2 := if best < v then some m else bm
    let alpha2 := max alpha v
    if beta ≤ alpha2 then (best2, bm2)
    else maxLoop e f b rest best2 bm2 alpha2 beta

/-- The minimizing loop of `minimax` (V1 lines 186-198), mirror image. -/
def minLoop (e : Engine) (f : Board → Score → Score → Score) (b : Board) :
    List Move → Score → Option Move → Score → Score → Score × Option Move
  | [], best, bm, _, _ => (best, bm)
  | m :: rest, best, bm, alpha, beta =>
    let v := f (e.push b m) alpha beta
    let best2 := if v < best then v else best
    let bm2 := if v < best then some m else bm
    let beta2 := min beta v
    if beta2 ≤ alpha then (best2, bm2)
    else minLoop e f b rest best2 bm2 alpha beta2

/-- The alpha-beta `minimax(board, depth, alpha, beta, maximizing_player)`
shared verbatim by V1 (lines 164-198), V3 and V4, parameterized by the
evaluator `ev` and the move-ordering key `evm` of the variant.  Terminal
condition `depth == 0 or board.is_game_over()`; children are searched with
roles flipped; the returned move of a child is discarded
(`eval, _ = minimax(...)`). -/
def minimaxP (e : Engine) (ev : Board → ℤ) (evm : Board → Move → ℚ) :
    Nat → Board → Score → Score → Bool → Score × Option Move
  | 0, b, _, _, _ => (zScore (ev b), none)
  | d + 1, b, alpha, beta, maxP =>
    if b.gameOver then (zScore (ev b), none)
    else
      let moves := orderedMoves e evm maxP b
      if maxP then
        maxLoop e (fun b2 a2 be2 => (minimaxP e ev evm d b2 a2 be2 false).1) b moves ⊥ none alpha beta
      else
        minLoop e (fun b2 a2 be2 => (minimaxP e ev evm d b2 a2 be2 true).1) b moves ⊤ none alpha beta

/-- Maximizing loop of the spec-side unpruned minimax: same strict-improvement
update and the same move order, but no window and no cutoff. -/
def maxLoopS (e : Engine) (f : Board → Score) (b : Board) :
    List Move → Score → Option Move → Score × Option Move
  | [], best, bm => (best, bm)
  | m :: rest, best, bm =>
    let v := f (e.push b m)
    if best < v then maxLoopS e f b rest v (some m)
    else maxLoopS e f b rest best bm

/-- Minimizing loop of the spec-side unpruned minimax. -/
def minLoopS (e : Engine) (f : Board → Score) (b : Board) :
    List Move → Score → Option Move → Score × Option Move
  | [], best, bm => (best, bm)
  | m :: rest, best, bm =>
    let v := f (e.push b m)
    if v < best then minLoopS e f b rest v (some m)
    else minLoopS e f b rest best bm

/-- Modelled from the spec: the unpruned minimax search over the same tree —
same evaluator, same move order, ties kept by the earliest-found move —
against which the claim compares the alpha-beta search (spec §8 "Pruning
correctness"). -/
def minimaxSpecP (e : Engine) (ev : Board → ℤ) (evm : Board → Move → ℚ) :
    Nat → Board → Bool → Score × Option Move
  | 0, b, _ => (zScore (ev b), none)
  | d + 1, b, maxP =>
    if b.gameOver then (zScore (ev b), none)
    else
      let moves := orderedMoves e evm maxP b
      if maxP then
        maxLoopS e (fun b2 => (minimaxSpecP e ev evm d b2 false).1) b moves ⊥ none
      else
        minLoopS e (fun b2 => (minimaxSpecP e ev evm d b2 true).1) b moves ⊤ none

namespace V1

/-- V1 `minimax` (lines 164-198): the shared search instantiated with the
V1 evaluator and move orderer. -/
def minimax (e : Engine) : Nat → Board → Score → Score → Bool → Score × Option Move :=
  minimaxP e evaluate_board (evaluate_move e)

/-- The unpruned reference search for V1 (same evaluator, same move order). -/
def minimaxSpec (e : Engine) : Nat → Board → Bool → Score × Option Move :=
  minimaxSpecP e evaluate_board (evaluate_move e)

end V1

/-! The mutable board of the source under `push`/`pop`.  python-chess
`board.pop()` restores the previous position exactly (spec §6: "Move
application and exact reversal (apply/undo), preserving full state across
the pair"), so the mutable board is a stack of positions: the current one
on top of the saved history. -/

/-- The mutable board: current position plus the stack of saved positions. -/
structure BState where
  cur : Board
  hist : List Board
deriving DecidableEq, Repr

/-- `board.push(move)`: the new position becomes current, the old one is saved. -/
def bpush (e : Engine) (st : BState) (m : Move) : BState :=
  ⟨e.push st.cur m, st.cur :: st.hist⟩

/-- `board.pop()`: restore the saved position.  The engine code never pops
an empty stack (every pop is paired with a preceding push), so the value on
an empty history is irrelevant; we keep the state unchanged there. -/
def bpop (st : BState) : BState :=
  match st.hist with
  | [] => st
  | b :: rest => ⟨b, rest⟩

namespace V1

/-- V1 `evaluate_move` exactly as executed: push the move on the mutable
board, score from the resulting position, pop. -/
def evaluate_moveS (e : Engine) (st : BState) (m : Move) : ℚ × BState :=
  let st1 := bpush e st m
  let b2 := st1.cur
  let s0 : ℚ :=
    if b2.checkmate then 10000
    else if b2.check then 50
    else if e.isCapture b2 m then 30
    else 0
  let s1 := if e.isCastling b2 m then s0 + 40 else s0
  let s2 :=
    if b2.turn = false then
      match pieceAt b2 m.toSq with
      | some p => if p.ptype = PieceType.king then s1 + (15 - center_distance m.toSq * 3) else s1
      | none => s1
    else s1
  (s2, bpop st1)

end V1

/-- Python computes the sort key of each list element once, in list order:
the stateful key decoration pass over the legal moves. -/
def sortKeysS (e : Engine) (evmS : Engine → BState → Move → ℚ × BState) :
    BState → List Move → List (ℚ × Move) × BState
  | st, [] => ([], st)
  | st, m :: ms =>
    let (k, st1) := evmS e st m
    let (rest, st2) := sortKeysS e evmS st1 ms
    ((k, m) :: rest, st2)

/-- Stateful maximizing loop: push, recurse, pop, update, possibly cut off. -/
def maxLoopSt (e : Engine) (rec : BState → Score → Score → (Score × Option Move) × BState) :
    List Move → BState → Score → Option Move → Score → Score → (Score × Option Move) × BState
  | [], st, best, bm, _, _ => ((best, bm), st)
  | m :: rest, st, best, bm, alpha, beta =>
    let st1 := bpush e st m
    let (res, st2) := rec st1 alpha beta
    let st3 := bpop st2
    let v := res.1
    let best2 := if best < v then v else best
    let bm2 := if best < v then some m else bm
    let alpha2 := max alpha v
    if beta ≤ alpha2 then ((best2, bm2), st3)
    else maxLoopSt e rec rest st3 best2 bm2 alpha2 beta

/-- Stateful minimizing loop, mirror image. -/
def minLoopSt (e : Engine) (rec : BState → Score → Score → (Score × Option Move) × BState) :
    List Move → BState → Score → Option Move → Score → Score → (Score × Option Move) × BState
  | [], st, best, bm, _, _ => ((best, bm), st)
  | m :: rest, st, best, bm, alpha, beta =>
    let st1 := bpush e st m
    let (res, st2) := rec st1 alpha beta
    let st3 := bpop st2
    let v := res.1
    let best2 := if v < best then v else best
    let bm2 := if v < best then some m else bm
    let beta2 := min beta v
    if beta2 ≤ alpha then ((best2, bm2), st3)
    else minLoopSt e rec rest st3 best2 bm2 alpha beta2

namespace V1

/-- V1 `minimax` exactly as executed on the mutable board: the sort keys
are computed by stateful `evaluate_move` probes, each child search pushes
the move, recurses, and pops, on every path including cutoffs. -/
def minimaxS (e : Engine) : Nat → BState → Score → Score → Bool → (Score × Option Move) × BState
  | 0, st, _, _, _ => ((zScore (evaluate_board st.cur), none), st)
  | d + 1, st, alpha, beta, maxP =>
    if st.cur.gameOver then ((zScore (evaluate_board st.cur), none), st)
    else
      let (keyed, st1) := sortKeysS e evaluate_moveS st (e.legalMoves st.cur)
      let sorted := (pySortKeyed maxP keyed).map (fun km => km.2)
      if maxP then
        maxLoopSt e (fun st2 a2 be2 => minimaxS e d st2 a2 be2 false) sorted st1 ⊥ none alpha beta
      else
        minLoopSt e (fun st2 a2 be2 => minimaxS e d st2 a2 be2 true) sorted st1 ⊤ none alpha beta

/-- The mate-in-one fast path of V1 `get_ai_move` (lines 205-210), as
executed: push each legal move, test checkmate, pop; return the first hit. -/
def mateScanS (e : Engine) : BState → List Move → Option Move × BState
  | st, [] => (none, st)
  | st, m :: ms =>
    let st1 := bpush e st m
    if st1.cur.checkmate then (some m, bpop st1)
    else mateScanS e (bpop st1) ms

/-- The iterative-deepening loop of V1 `get_ai_move` (lines 213-217), as
executed: `remaining` iterations left, `cur` the current depth; after each
completed depth the loop stops early when the root is checkmate/stalemate
or the wall clock exceeded the budget (`timeUp cur` is the oracle answer of
`time.time() - start_time > 2` observed after depth `cur`). -/
def idLoopS (e : Engine) (timeUp : Nat → Bool) : Nat → Nat → Option Move → BState → Option Move × BState
  | 0, _, best, st => (best, st)
  | k + 1, cur, _, st =>
    let (res, st1) := minimaxS e cur st ⊥ ⊤ (!st.cur.turn)
    let best2 := res.2
    if st1.cur.checkmate || st1.cur.stalemate || timeUp cur then (best2, st1)
    else idLoopS e timeUp k (cur + 1) best2 st1

/-- V1 `get_ai_move` (lines 200-219), as executed on the mutable board. -/
def get_ai_moveS (e : Engine) (st : BState) (depth : Nat) (timeUp : Nat → Bool) :
    Option Move × BState :=
  match mateScanS e st (e.legalMoves st.cur) with
  | (some m, st1) => (some m, st1)
  | (none, st1) => idLoopS e timeUp depth 1 none st1

/-- Pure value of the V1 iterative-deepening loop. -/
def idLoop (e : Engine) (timeUp : Nat → Bool) (b : Board) : Nat → Nat → Option Move → Option Move
  | 0, _, best => best
  | k + 1, cur, _ =>
    let best2 := (minimax e cur b ⊥ ⊤ (!b.turn)).2
    if b.checkmate || b.stalemate || timeUp cur then best2
    else idLoop e timeUp b k (cur + 1) best2

/-- Pure value of V1 `get_ai_move`: the mate-in-one scan over the legal
moves, then iterative deepening from depth 1 to `depth`, maximizing when
Black is to move (`board.turn == chess.BLACK`). -/
def get_ai_move (e : Engine) (b : Board) (depth : Nat) (timeUp : Nat → Bool) : Option Move :=
  match (e.legalMoves b).find? (fun m => (e.push b m).checkmate) with
  | some m => some m
  | none => idLoop e timeUp b depth 1 none

end V1

namespace V3

/-- V3 `evaluate_board` (lines 686-748): white-rook profile, evaluation from
White's perspective and negated for Black to move; stalemate is scored
`-500` ("Penalize stalemate"); the Python falsiness test
`if not white_rook:` also fires for a rook on square 0 (a1). -/
def evaluate_board (b : Board) : ℤ :=
  if b.checkmate then (if b.turn = false then 10000 else -10000)
  else if b.stalemate then -500
  else
    match findRook b true with
    | none => 0
    | some wr =>
      if wr = 0 then 0
      else
        let wk := b.whiteKing
        let bk := b.blackKing
        let distance_rook := max |sqFile bk - sqFile wr| |sqRank bk - sqRank wr|
        let distance_kings := max |sqFile bk - sqFile wk| |sqRank bk - sqRank wk|
        let edge_distance :=
          min (min (sqFile bk) (7 - sqFile bk)) (min (sqRank bk) (7 - sqRank bk))
        let rook_alignment : ℤ :=
          if sqFile bk = sqFile wr ∨ sqRank bk = sqRank wr then
            (if 1 < distance_rook then 5 else 2)
          else 0
        let opposition : ℤ :=
          if distance_kings = 1 then -50
          else if (|sqFile bk - sqFile wk| = 2 ∧ sqRank bk = sqRank wk) ∨
              (|sqRank bk - sqRank wk| = 2 ∧ sqFile bk = sqFile wk) then 20
          else 0
        let check_bonus : ℤ := if b.check then 10 else 0
        let evaluation :=
          100 - edge_distance * 10 + rook_alignment + opposition + check_bonus -
            distance_kings * 2
        if b.turn then evaluation else -evaluation

/-- V3 `evaluate_move` (lines 787-811): no castling bonus, king-centering
bonus `10 - center_distance` applied when the side to move after the push
is White (i.e. the probed move was Black's). -/
def evaluate_move (e : Engine) (b : Board) (m : Move) : ℚ :=
  let b2 := e.push b m
  let s0 : ℚ :=
    if b2.checkmate then 10000
    else if b2.check then 50
    else if e.isCapture b2 m then 30
    else 0
  if b2.turn then
    match pieceAt b2 m.toSq with
    | some p => if p.ptype = PieceType.king then s0 + (10 - V1.center_distance m.toSq) else s0
    | none => s0
  else s0

/-- V3 `minimax` (lines 750-785): the shared search with V3 evaluator and orderer. -/
def minimax (e : Engine) : Nat → Board → Score → Score → Bool → Score × Option Move :=
  minimaxP e evaluate_board (evaluate_move e)

/-- The iterative-deepening loop of V3 `get_ai_move` (lines 817-821): no
fast path and no time budget; stop early only when the root is terminal. -/
def idLoop (e : Engine) (b : Board) : Nat → Nat → Option Move → Option Move
  | 0, _, best => best
  | k + 1, cur, _ =>
    let best2 := (minimax e cur b ⊥ ⊤ b.turn).2
    if b.checkmate || b.stalemate then best2
    else idLoop e b k (cur + 1) best2

/-- V3 `get_ai_move` (lines 813-822): iterative deepening from depth 1,
maximizing when White is to move (`board.turn == chess.WHITE`). -/
def get_ai_move (e : Engine) (b : Board) (depth : Nat) : Option Move :=
  idLoop e b depth 1 none

end V3

namespace ChessEndgameSolver

/-- Solver `evaluate_board` (lines 371-405): `math.inf` sentinels for
checkmate, 0 for stalemate / insufficient material / claimable draw,
`-math.inf` when the white rook is absent (the Python falsiness test
`if not white_rook:` also fires for a rook on square 0), otherwise the
weighted heuristic from White's perspective. -/
def evaluate_board (b : Board) : SScore :=
  if b.checkmate then (if b.turn = false then ⊤ else ⊥)
  else if b.stalemate || b.insufficientMaterial || b.canClaimDraw then qScore 0
  else
    match b.whiteRook with
    | none => ⊥
    | some wr =>
      if wr = 0 then ⊥
      else
        let wk := b.whiteKing
        let bk := b.blackKing
        let rook_safety : ℤ := max |sqFile wr - sqFile bk| |sqRank wr - sqRank bk|
        let king_proximity : ℤ := 14 - max |sqFile wk - sqFile bk| |sqRank wk - sqRank bk|
        let centrality : ℚ :=
          ((3.5 : ℚ) - |((wr % 8 : ℕ) : ℚ) - 3.5|) + ((3.5 : ℚ) - |((wr / 8 : ℕ) : ℚ) - 3.5|)
        let s1 : ℚ := (rook_safety : ℚ) * 5 + (king_proximity : ℚ) * 3 + centrality * 2
        let s2 := if sqFile wk = sqFile bk ∨ sqRank wk = sqRank bk then s1 + 10 else s1
        let s3 := if b.check then s2 + 15 else s2
        qScore s3

/-- A transposition-table entry: `{'value': ..., 'depth': ...}`. -/
structure TTEntry where
  value : SScore
  depth : Nat
deriving DecidableEq, Repr

/-- The transposition table, keyed by the exact position (the embedding of
`board.fen()`: our `Board` record is the exact serialization the spec
prescribes - pieces, side to move, and state flags). -/
abbrev TTable := List (Board × TTEntry)

/-- Dictionary lookup `self.transposition_table[fen]`. -/
def ttLookup (t : TTable) (b : Board) : Option TTEntry :=
  (t.find? (fun kv => decide (kv.1 = b))).map (fun kv => kv.2)

/-- Dictionary store `self.transposition_table[fen] = entry` (newest entry
shadows any older one for the same key). -/
def ttStore (t : TTable) (b : Board) (ent : TTEntry) : TTable :=
  (b, ent) :: t

/-- The maximizing loop of the solver `minimax` (lines 420-429): no move
ordering, no best-move tracking, table threaded through the children. -/
def maxLoopTT (e : Engine) (rec : Board → TTable → SScore → SScore → SScore × TTable) :
    List Move → Board → TTable → SScore → SScore → SScore → SScore × TTable
  | [], _, t, best, _, _ => (best, t)
  | m :: rest, b, t, best, alpha, beta =>
    let r := rec (e.push b m) t alpha beta
    let best2 := max best r.1
    let alpha2 := max alpha r.1
    if beta ≤ alpha2 then (best2, r.2)
    else maxLoopTT e rec rest b r.2 best2 alpha2 beta

/-- The minimizing loop of the solver `minimax` (lines 432-441). -/
def minLoopTT (e : Engine) (rec : Board → TTable → SScore → SScore → SScore × TTable) :
    List Move → Board → TTable → SScore → SScore → SScore → SScore × TTable
  | [], _, t, best, _, _ => (best, t)
  | m :: rest, b, t, best, alpha, beta =>
    let r := rec (e.push b m) t alpha beta
    let best2 := min best r.1
    let beta2 := min beta r.1
    if beta2 ≤ alpha then (best2, r.2)
    else minLoopTT e rec rest b r.2 best2 alpha beta2

/-- Solver `minimax` (lines 407-443): the table is consulted first - a hit
is used whenever the stored depth is at least the requested depth,
regardless of the stored window or maximizing flag - then the terminal
test, then the unordered alpha-beta loops; the computed value is stored
under the position key with the requested depth. -/
def minimax (e : Engine) : Nat → Board → TTable → SScore → SScore → Bool → SScore × TTable
  | 0, b, t, _, _, _ =>
    let body := fun (t1 : TTable) =>
      let v := evaluate_board b
      (v, ttStore t1 b ⟨v, 0⟩)
    match ttLookup t b with
    | some ent => if 0 ≤ ent.depth then (ent.value, t) else body t
    | none => body t
  | d + 1, b, t, alpha, beta, p =>
    let body := fun (t1 : TTable) =>
      if b.gameOver then
        let v := evaluate_board b
        (v, ttStore t1 b ⟨v, d + 1⟩)
      else if p then
        let r := maxLoopTT e (fun b2 t2 a2 be2 => minimax e d b2 t2 a2 be2 false)
          (e.legalMoves b) b t1 ⊥ alpha beta
        (r.1, ttStore r.2 b ⟨r.1, d + 1⟩)
      else
        let r := minLoopTT e (fun b2 t2 a2 be2 => minimax e d b2 t2 a2 be2 true)
          (e.legalMoves b) b t1 ⊤ alpha beta
        (r.1, ttStore r.2 b ⟨r.1, d + 1⟩)
    match ttLookup t b with
    | some ent => if d + 1 ≤ ent.depth then (ent.value, t) else body t
    | none => body t

/-- Maximizing loop of the cache-free reference search, instrumented with
the list of positions visited (in traversal order, cutoffs included). -/
def maxLoopNCV (e : Engine) (rec : Board → SScore → SScore → SScore × List Board) :
    List Move → Board → SScore → SScore → SScore → SScore × List Board
  | [], _, best, _, _ => (best, [])
  | m :: rest, b, best, alpha, beta =>
    let r := rec (e.push b m) alpha beta
    let best2 := max best r.1
    let alpha2 := max alpha r.1
    if beta ≤ alpha2 then (best2, r.2)
    else
      let r2 := maxLoopNCV e rec rest b best2 alpha2 beta
      (r2.1, r.2 ++ r2.2)

/-- Minimizing loop of the cache-free reference search. -/
def minLoopNCV (e : Engine) (rec : Board → SScore → SScore → SScore × List Board) :
    List Move → Board → SScore → SScore → SScore → SScore × List Board
  | [], _, best, _, _ => (best, [])
  | m :: rest, b, best, alpha, beta =>
    let r := rec (e.push b m) alpha beta
    let best2 := min best r.1
    let beta2 := min beta r.1
    if beta2 ≤ alpha then (best2, r.2)
    else
      let r2 := minLoopNCV e rec rest b best2 alpha beta2
      (r2.1, r.2 ++ r2.2)

/-- Modelled from the spec: "the identical search performed with no cache" -
the solver `minimax` with the transposition table removed and nothing else
changed - instrumented with the list of visited positions. -/
def minimaxNCV (e : Engine) : Nat → Board → SScore → SScore → Bool → SScore × List Board
  | 0, b, _, _, _ => (evaluate_board b, [b])
  | d + 1, b, alpha, beta, p =>
    if b.gameOver then (evaluate_board b, [b])
    else if p then
      let r := maxLoopNCV e (fun b2 a2 be2 => minimaxNCV e d b2 a2 be2 false)
        (e.legalMoves b) b ⊥ alpha beta
      (r.1, b :: r.2)
    else
      let r := minLoopNCV e (fun b2 a2 be2 => minimaxNCV e d b2 a2 be2 true)
        (e.legalMoves b) b ⊤ alpha beta
      (r.1, b :: r.2)

/-- Modelled from the spec: the value of the identical search performed
with no cache. -/
def minimaxNC (e : Engine) (d : Nat) (b : Board) (alpha beta : SScore) (p : Bool) : SScore :=
  (minimaxNCV e d b alpha beta p).1

/-- The per-child search of `find_best_move` (lines 451-456): the child is
pushed, searched with the full window, with the maximizing flag set from
the post-push turn (`board.turn == chess.BLACK` right after `push`), and
popped; the table updated inside `minimax` is carried out with the value. -/
def fbmChildValue (e : Engine) (b : Board) (d : Nat) (t : TTable) (m : Move) :
    SScore × TTable :=
  let child := e.push b m
  if child.turn = false then minimax e (d - 1) child t ⊥ ⊤ true
  else minimax e (d - 1) child t ⊥ ⊤ false

/-- The root loop of `find_best_move` (lines 450-463): the table is
threaded across the children (`self.transposition_table` persists), and
the best move is updated only on a strict improvement of `best_value`,
with the comparison direction chosen by the root turn read after `pop`
(`current_value > best_value` for a White root, `<` for a Black root). -/
def fbmLoop (e : Engine) (b : Board) (d : Nat) :
    List Move → TTable → SScore → Option Move → Option Move × TTable
  | [], t, _, bm => (bm, t)
  | m :: rest, t, best, bm =>
    let r := fbmChildValue e b d t m
    if b.turn = true then
      if best < r.1 then fbmLoop e b d rest r.2 r.1 (some m)
      else fbmLoop e b d rest r.2 best bm
    else
      if r.1 < best then fbmLoop e b d rest r.2 r.1 (some m)
      else fbmLoop e b d rest r.2 best bm

/-- `ChessEndgameSolver.find_best_move` (lines 445-465): `best_move`
starts as `None` and `best_value` as `-math.inf` for a White root and
`math.inf` for a Black root; a move is returned only if some child's
full-window search value strictly beats the running `best_value`. -/
def find_best_move (e : Engine) (b : Board) (d : Nat) (t : TTable) :
    Option Move × TTable :=
  fbmLoop e b d (e.legalMoves b) t (if b.turn = true then ⊥ else ⊤) none

end ChessEndgameSolver

namespace RulesKRK

/-! A concrete instantiation of the external rules engine (spec §6) for
positions with two kings and at most one rook per side, used to evaluate
the engine code on concrete positions.  Terminal flags of a pushed board
are recomputed from the pieces, so pushed boards are genuine oracle
answers of a correct rules engine for this material. -/

/-- The colour occupying a square, if any. -/
def occupant (b : Board) (sq : Nat) : Option Bool :=
  (pieceAt b sq).map (fun p => p.color)

/-- Whether integer file/rank coordinates lie on the board. -/
def onBoard (f r : ℤ) : Bool :=
  decide (0 ≤ f ∧ f < 8 ∧ 0 ≤ r ∧ r < 8)

/-- Square number of integer coordinates. -/
def mkSq (f r : ℤ) : Nat := (r * 8 + f).toNat

/-- King square of a colour. -/
def kingSq (b : Board) (c : Bool) : Nat := if c then b.whiteKing else b.blackKing

/-- Rook square of a colour, if the rook is on the board. -/
def rookSq (b : Board) (c : Bool) : Option Nat := if c then b.whiteRook else b.blackRook

/-- Chebyshev distance between two squares (`chess.square_distance`). -/
def cheb (a c : Nat) : ℤ := max |sqFile a - sqFile c| |sqRank a - sqRank c|

/-- The up-to-eight king step targets from a square. -/
def kingSteps (sq : Nat) : List Nat :=
  let f : ℤ := sqFile sq
  let r : ℤ := sqRank sq
  ([(-1, -1), (0, -1), (1, -1), (-1, 0), (1, 0), (-1, 1), (0, 1), (1, 1)] :
      List (ℤ × ℤ)).filterMap (fun dv =>
    if onBoard (f + dv.1) (r + dv.2) then some (mkSq (f + dv.1) (r + dv.2)) else none)

/-- Rook slide targets in one direction: empty squares up to and including
the first occupied square, which is a target only when held by the enemy. -/
def slideGo (b : Board) (own : Bool) (d : ℤ × ℤ) : Nat → ℤ → ℤ → List Nat
  | 0, _, _ => []
  | fuel + 1, f, r =>
    let f2 := f + d.1
    let r2 := r + d.2
    if onBoard f2 r2 then
      let t := mkSq f2 r2
      match occupant b t with
      | none => t :: slideGo b own d fuel f2 r2
      | some c => if c = own then [] else [t]
    else []

/-- All rook slide targets of the side `own` from square `sq`. -/
def rookSlides (b : Board) (own : Bool) (sq : Nat) : List Nat :=
  slideGo b own (0, 1) 7 (sqFile sq) (sqRank sq) ++
  slideGo b own (0, -1) 7 (sqFile sq) (sqRank sq) ++
  slideGo b own (1, 0) 7 (sqFile sq) (sqRank sq) ++
  slideGo b own (-1, 0) 7 (sqFile sq) (sqRank sq)

/-- Rook attack squares in one direction: up to and including the first
occupied square, whatever its colour (defended pieces are attacked too). -/
def rookRayGo (b : Board) (d : ℤ × ℤ) : Nat → ℤ → ℤ → List Nat
  | 0, _, _ => []
  | fuel + 1, f, r =>
    let f2 := f + d.1
    let r2 := r + d.2
    if onBoard f2 r2 then
      let t := mkSq f2 r2
      match occupant b t with
      | none => t :: rookRayGo b d fuel f2 r2
      | some _ => [t]
    else []

/-- Whether the side `c` attacks square `s` (king adjacency or rook ray). -/
def attacks (b : Board) (c : Bool) (s : Nat) : Bool :=
  decide (cheb (kingSq b c) s = 1) ||
  (match rookSq b c with
   | none => false
   | some rq =>
     (rookRayGo b (0, 1) 7 (sqFile rq) (sqRank rq)).contains s ||
     (rookRayGo b (0, -1) 7 (sqFile rq) (sqRank rq)).contains s ||
     (rookRayGo b (1, 0) 7 (sqFile rq) (sqRank rq)).contains s ||
     (rookRayGo b (-1, 0) 7 (sqFile rq) (sqRank rq)).contains s)

/-- Apply a move to the piece fields: move the piece standing on the
from-square, removing any enemy piece on the to-square. -/
def applyMove (b : Board) (m : Move) : Board :=
  let clearW := if b.whiteRook = some m.toSq then none else b.whiteRook
  let clearB := if b.blackRook = some m.toSq then none else b.blackRook
  if b.whiteKing = m.fromSq then
    { b with whiteKing := m.toSq, whiteRook := clearW, blackRook := clearB }
  else if b.blackKing = m.fromSq then
    { b with blackKing := m.toSq, whiteRook := clearW, blackRook := clearB }
  else if b.whiteRook = some m.fromSq then
    { b with whiteRook := some m.toSq, blackRook := clearB }
  else if b.blackRook = some m.fromSq then
    { b with blackRook := some m.toSq, whiteRook := clearW }
  else b

/-- Pseudo-legal moves of the side to move: king steps to squares not held
by an own piece, then rook slides. -/
def pseudoMoves (b : Board) : List Move :=
  let c := b.turn
  let k := kingSq b c
  let kmoves := (kingSteps k).filterMap (fun t =>
    match occupant b t with
    | some oc => if oc = c then none else some (Move.mk k t)
    | none => some (Move.mk k t))
  let rmoves :=
    match rookSq b c with
    | none => []
    | some rq => (rookSlides b c rq).map (fun t => Move.mk rq t)
  kmoves ++ rmoves

/-- Legal moves: pseudo-legal moves that do not leave the own king attacked. -/
def genLegal (b : Board) : List Move :=
  (pseudoMoves b).filter (fun m =>
    let b2 := applyMove b m
    !(attacks b2 (!b.turn) (kingSq b2 b.turn)))

/-- Move application with the oracle flags of the resulting position
recomputed from the pieces. -/
def push (b : Board) (m : Move) : Board :=
  let b2 := applyMove b m
  let b3 : Board := { b2 with turn := !b.turn }
  let chk := attacks b3 b.turn (kingSq b3 b3.turn)
  let stuck := (genLegal b3).isEmpty
  let cm := chk && stuck
  let sm := !chk && stuck
  let im := b3.whiteRook.isNone && b3.blackRook.isNone
  { b3 with
    check := chk
    checkmate := cm
    stalemate := sm
    insufficientMaterial := im
    canClaimDraw := false
    gameOver := cm || sm || im }

/-- `board.is_capture(move)` as python-chess computes it on an arbitrary
board: the to-square is held by the side not to move (as the engine code
calls it after the push, the moved piece itself satisfies this). -/
def isCapture (b : Board) (m : Move) : Bool :=
  match pieceAt b m.toSq with
  | some p => decide (p.color ≠ b.turn)
  | none => false

/-- `board.is_castling(move)` as python-chess computes it on an arbitrary
board: a king stands on the from-square and the move is a wide king step or
lands on an own rook. -/
def isCastling (b : Board) (m : Move) : Bool :=
  match pieceAt b m.fromSq with
  | some p =>
    if p.ptype = PieceType.king then
      decide (1 < |sqFile m.fromSq - sqFile m.toSq|) ||
      (match pieceAt b m.toSq with
       | some q => decide (q.ptype = PieceType.rook) && decide (q.color = b.turn)
       | none => false)
    else false
  | none => false

/-- The concrete rules engine. -/
def engine : Engine :=
  { legalMoves := genLegal, push := push, isCapture := isCapture, isCastling := isCastling }

end RulesKRK

namespace Cex

/-! Concrete positions and small synthetic engines used by the
counterexamples and witnesses. -/

/-- King e4 versus king e8, White to move: insufficient material, so the
position is game over although White has legal king moves. -/
def kkBoard : Board :=
  { turn := true
    whiteKing := 28
    blackKing := 60
    whiteRook := none
    blackRook := none
    check := false
    checkmate := false
    stalemate := false
    insufficientMaterial := true
    canClaimDraw := false
    gameOver := true }

/-- White king a1; Black to move with king b3 and rook h8: Black mates in
one with Rh1, and Rh2 forces mate in two. -/
def mate1Board : Board :=
  { turn := false
    whiteKing := 0
    blackKing := 17
    whiteRook := none
    blackRook := some 63
    check := false
    checkmate := false
    stalemate := false
    insufficientMaterial := false
    canClaimDraw := false
    gameOver := false }

/-- The mating rook move h8-h1 in `mate1Board`. -/
def rh1 : Move := ⟨63, 7⟩

/-- A time oracle under budget at every depth. -/
def noTimeUp : Nat → Bool := fun _ => false

/-- A game-over position used by the synthetic witness engine. -/
def termBoard : Board :=
  { turn := false
    whiteKing := 0
    blackKing := 32
    whiteRook := none
    blackRook := none
    check := false
    checkmate := false
    stalemate := false
    insufficientMaterial := true
    canClaimDraw := false
    gameOver := true }

/-- A live position for the synthetic witness engine. -/
def liveBoard : Board :=
  { turn := true
    whiteKing := 0
    blackKing := 32
    whiteRook := some 9
    blackRook := none
    check := false
    checkmate := false
    stalemate := false
    insufficientMaterial := false
    canClaimDraw := false
    gameOver := false }

/-- A synthetic rules engine: a live position has exactly one legal move,
which leads to `termBoard`; game-over positions have none.  It satisfies
the rules-engine guarantee that move-less positions are game over. -/
def wEngine : Engine :=
  { legalMoves := fun b => if b.gameOver then [] else [⟨0, 1⟩],
    push := fun _ _ => termBoard,
    isCapture := fun _ _ => false,
    isCastling := fun _ _ => false }

/-- Root position of the transposition counterexample (White to move). -/
def c9Root : Board :=
  { turn := true
    whiteKing := 4
    blackKing := 60
    whiteRook := some 9
    blackRook := none
    check := false
    checkmate := false
    stalemate := false
    insufficientMaterial := false
    canClaimDraw := false
    gameOver := false }

/-- Position `P` of the transposition counterexample, reached both one ply
and three plies below the root (Black to move; non-terminal, rook on b2). -/
def c9P : Board :=
  { turn := false
    whiteKing := 4
    blackKing := 52
    whiteRook := some 9
    blackRook := none
    check := false
    checkmate := false
    stalemate := false
    insufficientMaterial := false
    canClaimDraw := false
    gameOver := false }

/-- Terminal position under `P`: White to move and checkmated. -/
def c9L1 : Board :=
  { turn := true
    whiteKing := 4
    blackKing := 52
    whiteRook := some 9
    blackRook := none
    check := true
    checkmate := true
    stalemate := false
    insufficientMaterial := false
    canClaimDraw := false
    gameOver := true }

/-- Second root child of the transposition counterexample (Black to move). -/
def c9B2 : Board :=
  { turn := false
    whiteKing := 12
    blackKing := 60
    whiteRook := some 9
    blackRook := none
    check := false
    checkmate := false
    stalemate := false
    insufficientMaterial := false
    canClaimDraw := false
    gameOver := false }

/-- Child of `c9B2` (White to move), whose only move transposes to `P`. -/
def c9C2 : Board :=
  { turn := true
    whiteKing := 12
    blackKing := 52
    whiteRook := some 9
    blackRook := none
    check := false
    checkmate := false
    stalemate := false
    insufficientMaterial := false
    canClaimDraw := false
    gameOver := false }

/-- The synthetic game tree of the transposition counterexample: the same
position `c9P` is reached one ply below the root (searched at depth 2) and
three plies below the root (searched at depth 0). -/
def c9Engine : Engine :=
  { legalMoves := fun b =>
      if b = c9Root then [⟨0, 1⟩, ⟨0, 2⟩]
      else if b = c9P then [⟨2, 3⟩]
      else if b = c9B2 then [⟨4, 5⟩]
      else if b = c9C2 then [⟨6, 7⟩]
      else [],
    push := fun b m =>
      if b = c9Root then (if m = ⟨0, 1⟩ then c9P else c9B2)
      else if b = c9P then c9L1
      else if b = c9B2 then c9C2
      else if b = c9C2 then c9P
      else termBoard,
    isCapture := fun _ _ => false,
    isCastling := fun _ _ => false }

/-- A non-terminal position whose white rook is absent (White king e4,
Black king e8, Black rook h8): the solver evaluator profile expects a
white rook here. -/
def noWRookBoard : Board :=
  { turn := true
    whiteKing := 28
    blackKing := 60
    whiteRook := none
    blackRook := some 63
    check := false
    checkmate := false
    stalemate := false
    insufficientMaterial := false
    canClaimDraw := false
    gameOver := false }

/-- A stalemate position (flags as the rules oracle reports them). -/
def staleBoard : Board :=
  { turn := true
    whiteKing := 4
    blackKing := 60
    whiteRook := some 8
    blackRook := none
    check := false
    checkmate := false
    stalemate := true
    insufficientMaterial := false
    canClaimDraw := false
    gameOver := true }

/-- A claimable-draw position (e.g. fifty quiet moves) with the black rook
on a8: V1 evaluates it heuristically. -/
def drawBoard : Board :=
  { turn := true
    whiteKing := 4
    blackKing := 60
    whiteRook := none
    blackRook := some 56
    check := false
    checkmate := false
    stalemate := false
    insufficientMaterial := false
    canClaimDraw := true
    gameOver := false }

/-- A live solver position with the white rook on b2. -/
def solverBoard : Board :=
  { turn := true
    whiteKing := 4
    blackKing := 60
    whiteRook := some 9
    blackRook := none
    check := false
    checkmate := false
    stalemate := false
    insufficientMaterial := false
    canClaimDraw := false
    gameOver := false }

/-- Position after Black plays Rh2 in `mate1Board` (White to move). -/
def v3A : Board :=
  { turn := true
    whiteKing := 0
    blackKing := 17
    whiteRook := none
    blackRook := some 15
    check := false
    checkmate := false
    stalemate := false
    insufficientMaterial := false
    canClaimDraw := false
    gameOver := false }

/-- Position after the further forced Kb1 (Black to move). -/
def v3C : Board :=
  { turn := false
    whiteKing := 1
    blackKing := 17
    whiteRook := none
    blackRook := some 15
    check := false
    checkmate := false
    stalemate := false
    insufficientMaterial := false
    canClaimDraw := false
    gameOver := false }

/-- Position after the mating Rh1 from `v3C`: White is checkmated. -/
def v3D : Board :=
  { turn := true
    whiteKing := 1
    blackKing := 17
    whiteRook := none
    blackRook := some 7
    check := true
    checkmate := true
    stalemate := false
    insufficientMaterial := false
    canClaimDraw := false
    gameOver := true }

/-- Position after the immediate mate Rh1 from `mate1Board`. -/
def v3CM : Board :=
  { turn := true
    whiteKing := 0
    blackKing := 17
    whiteRook := none
    blackRook := some 7
    check := true
    checkmate := true
    stalemate := false
    insufficientMaterial := false
    canClaimDraw := false
    gameOver := true }

/-- The rules oracle restricted to the principal lines of `mate1Board`:
from the root, only Rh2 (h8-h2, forcing mate in two) and Rh1 (h8-h1, mate
in one) are exposed; after Rh2 White's reply Kb1 is forced and Rh1 then
mates.  Every transition is a real chess move and every flag matches the
real position; the restriction only prunes sibling moves, keeping the
counterexample tree small. -/
def v3Engine : Engine :=
  { legalMoves := fun b =>
      if b = mate1Board then [⟨63, 15⟩, ⟨63, 7⟩]
      else if b = v3A then [⟨0, 1⟩]
      else if b = v3C then [⟨15, 7⟩]
      else [],
    push := fun b m =>
      if b = mate1Board then (if m = ⟨63, 15⟩ then v3A else v3CM)
      else if b = v3A then v3C
      else if b = v3C then v3D
      else termBoard,
    isCapture := fun _ _ => false,
    isCastling := fun _ _ => false }

/-- Lone white king e4 versus black king e8 and rook a8, White to move:
live, with legal moves, but every position in White's search tree lacks
the white rook the solver evaluator expects, so every child search value
is `-math.inf`. -/
def fbmRoot : Board :=
  { turn := true
    whiteKing := 28
    blackKing := 60
    whiteRook := none
    blackRook := some 56
    check := false
    checkmate := false
    stalemate := false
    insufficientMaterial := false
    canClaimDraw := false
    gameOver := false }

/-- Position after White plays Kd4 from `fbmRoot` (Black to move). -/
def fbmA : Board :=
  { turn := false
    whiteKing := 27
    blackKing := 60
    whiteRook := none
    blackRook := some 56
    check := false
    checkmate := false
    stalemate := false
    insufficientMaterial := false
    canClaimDraw := false
    gameOver := false }

/-- Position after the further Ra1 (White to move). -/
def fbmB : Board :=
  { turn := true
    whiteKing := 27
    blackKing := 60
    whiteRook := none
    blackRook := some 0
    check := false
    checkmate := false
    stalemate := false
    insufficientMaterial := false
    canClaimDraw := false
    gameOver := false }

/-- Position after the further Kd5 (Black to move; depth-3 leaf). -/
def fbmC : Board :=
  { turn := false
    whiteKing := 35
    blackKing := 60
    whiteRook := none
    blackRook := some 0
    check := false
    checkmate := false
    stalemate := false
    insufficientMaterial := false
    canClaimDraw := false
    gameOver := false }

/-- The rules oracle restricted to one real line of `fbmRoot` (Kd4, Ra1,
Kd5): every transition is a legal chess move with the real flags.  Every
line of the unrestricted tree likewise ends in a rookless non-terminal
leaf worth `-math.inf`, so the restriction does not change the root
values: every child of the root is worth `-math.inf` either way. -/
def fbmEngine : Engine :=
  { legalMoves := fun b =>
      if b = fbmRoot then [⟨28, 27⟩]
      else if b = fbmA then [⟨56, 0⟩]
      else if b = fbmB then [⟨27, 35⟩]
      else [],
    push := fun b _ =>
      if b = fbmRoot then fbmA
      else if b = fbmA then fbmB
      else if b = fbmB then fbmC
      else termBoard,
    isCapture := fun _ _ => false,
    isCastling := fun _ _ => false }

end Cex

namespace AB

/-! Correctness of the alpha-beta pruning (claim C1): the fail-soft
alpha-beta loops agree with the unpruned loops at the full window, via the
classical window-bound invariants, proved by induction over the move list
and the depth. -/

/-- The fail-soft window bounds relating a pruned child search `f` to the
unpruned child value `Fv`: a fail-low result upper-bounds the true value,
a fail-high result lower-bounds it, and an in-window result is exact. -/
def childTriples (f : Board → Score → Score → Score) (Fv : Board → Score) : Prop :=
  ∀ b2 alpha beta, alpha < beta →
    (f b2 alpha beta ≤ alpha → Fv b2 ≤ f b2 alpha beta) ∧
    (beta ≤ f b2 alpha beta → f b2 alpha beta ≤ Fv b2) ∧
    (alpha < f b2 alpha beta → f b2 alpha beta < beta → f b2 alpha beta = Fv b2)

theorem maxLoopS_mono (e : Engine) (Fv : Board → Score) (b : Board) :
    ∀ (L : List Move) (best : Score) (bm : Option Move),
      best ≤ (maxLoopS e Fv b L best bm).1 := by
  intro L
  induction L with
  | nil => intro best bm; simp [maxLoopS]
  | cons m rest ih =>
    intro best bm
    simp only [maxLoopS]
    split
    · exact le_trans (le_of_lt (by assumption)) (ih _ _)
    · exact ih _ _

theorem minLoopS_mono (e : Engine) (Fv : Board → Score) (b : Board) :
    ∀ (L : List Move) (best : Score) (bm : Option Move),
      (minLoopS e Fv b L best bm).1 ≤ best := by
  intro L
  induction L with
  | nil => intro best bm; simp [minLoopS]
  | cons m rest ih =>
    intro best bm
    simp only [minLoopS]
    split
    · exact le_trans (ih _ _) (le_of_lt (by assumption))
    · exact ih _ _

theorem maxLoopS_top (e : Engine) (Fv : Board → Score) (b : Board) :
    ∀ (L : List Move) (bm : Option Move),
      maxLoopS e Fv b L ⊤ bm = (⊤, bm) := by
  intro L
  induction L with
  | nil => intro bm; simp [maxLoopS]
  | cons m rest ih =>
    intro bm
    simp only [maxLoopS]
    rw [if_neg (not_top_lt)]
    exact ih bm

theorem minLoopS_bot (e : Engine) (Fv : Board → Score) (b : Board) :
    ∀ (L : List Move) (bm : Option Move),
      minLoopS e Fv b L ⊥ bm = (⊥, bm) := by
  intro L
  induction L with
  | nil => intro bm; simp [minLoopS]
  | cons m rest ih =>
    intro bm
    simp only [minLoopS]
    rw [if_neg (not_lt_bot)]
    exact ih bm

/-- Window-bound invariants of the pruned maximizing loop against the
unpruned one, for arbitrary windows and accumulators. -/
theorem maxLoop_val (e : Engine) (b : Board) (f : Board → Score → Score → Score)
    (Fv : Board → Score) (h : childTriples f Fv) :
    ∀ (L : List Move) (bp : Score) (bmp : Option Move) (bs : Score) (bms : Option Move)
      (alpha beta : Score), alpha < beta → bs ≤ bp → bp ≤ alpha →
      bp ≤ (maxLoop e f b L bp bmp alpha beta).1 ∧
      ((maxLoop e f b L bp bmp alpha beta).1 ≤ alpha →
        (maxLoopS e Fv b L bs bms).1 ≤ (maxLoop e f b L bp bmp alpha beta).1) ∧
      (beta ≤ (maxLoop e f b L bp bmp alpha beta).1 →
        (maxLoop e f b L bp bmp alpha beta).1 ≤ (maxLoopS e Fv b L bs bms).1) ∧
      (alpha < (maxLoop e f b L bp bmp alpha beta).1 →
        (maxLoop e f b L bp bmp alpha beta).1 < beta →
        (maxLoop e f b L bp bmp alpha beta).1 = (maxLoopS e Fv b L bs bms).1) := by
  intro L
  induction L with
  | nil =>
    intro bp bmp bs bms alpha beta hab hsp hpa
    refine ⟨le_refl _, fun _ => hsp, fun hb => absurd (lt_of_lt_of_le hab hb) (not_lt.mpr hpa), ?_⟩
    intro hga _
    exact absurd (lt_of_lt_of_le hga hpa) (lt_irrefl alpha)
  | cons m rest ih =>
    intro bp bmp bs bms alpha beta hab hsp hpa
    have tri := h (e.push b m) alpha beta hab
    simp only [maxLoop, maxLoopS]
    set v := f (e.push b m) alpha beta with hv
    set Fm := Fv (e.push b m) with hFm
    rcases le_or_lt v alpha with hva | hav
    · -- fail-low child: true child value is below the window too
      have hFv : Fm ≤ v := tri.1 hva
      have hmax : max alpha v = alpha := max_eq_left hva
      rw [hmax, if_neg (not_le.mpr hab)]
      -- both loops recurse; relate the updated accumulators
      by_cases hpv : bp < v
      · rw [if_pos hpv, if_pos hpv]
        by_cases hsF : bs < Fm
        · rw [if_pos hsF]
          exact ⟨le_trans (le_of_lt hpv) (ih v (some m) Fm (some m) alpha beta hab hFv hva).1,
            (ih v (some m) Fm (some m) alpha beta hab hFv hva).2.1,
            (ih v (some m) Fm (some m) alpha beta hab hFv hva).2.2.1,
            (ih v (some m) Fm (some m) alpha beta hab hFv hva).2.2.2⟩
        · rw [if_neg hsF]
          have hsv : bs ≤ v := le_trans hsp (le_of_lt hpv)
          exact ⟨le_trans (le_of_lt hpv) (ih v (some m) bs bms alpha beta hab hsv hva).1,
            (ih v (some m) bs bms alpha beta hab hsv hva).2.1,
            (ih v (some m) bs bms alpha beta hab hsv hva).2.2.1,
            (ih v (some m) bs bms alpha beta hab hsv hva).2.2.2⟩
      · rw [if_neg hpv, if_neg hpv]
        have hvp : v ≤ bp := not_lt.mp hpv
        by_cases hsF : bs < Fm
        · rw [if_pos hsF]
          have hsF2 : Fm ≤ bp := le_trans hFv hvp
          exact (ih bp bmp Fm (some m) alpha beta hab hsF2 hpa)
        · rw [if_neg hsF]
          exact (ih bp bmp bs bms alpha beta hab hsp hpa)
    · rcases lt_or_le v beta with hvb | hbv
      · -- in-window child: exact value
        have hveq : v = Fm := tri.2.2 hav hvb
        have hpv : bp < v := lt_of_le_of_lt hpa hav
        have hsF : bs < Fm := lt_of_le_of_lt (le_trans hsp hpa) (hveq ▸ hav)
        rw [if_pos hpv, if_pos hpv, if_pos hsF, max_eq_right (le_of_lt hav),
          if_neg (not_le.mpr hvb)]
        have ihv := ih v (some m) Fm (some m) v beta hvb (le_of_eq hveq.symm) (le_refl v)
        refine ⟨le_trans (le_of_lt hpv) ihv.1, ?_, ihv.2.2.1, ?_⟩
        · intro hga
          exact absurd (lt_of_lt_of_le hav (le_trans ihv.1 hga)) (lt_irrefl alpha)
        · intro _ hgb
          rcases eq_or_lt_of_le ihv.1 with hveqg | hvlt
          · -- the loop value stayed at v: both sides agree at v
            have h1 : (maxLoopS e Fv b rest Fm (some m)).1 ≤
                (maxLoop e f b rest v (some m) v beta).1 := ihv.2.1 (le_of_eq hveqg.symm)
            have h2 : Fm ≤ (maxLoopS e Fv b rest Fm (some m)).1 :=
              maxLoopS_mono e Fv b rest Fm (some m)
            exact le_antisymm (le_trans (le_of_eq hveqg.symm) (hveq ▸ h2)) h1
          · exact ihv.2.2.2 hvlt hgb
      · -- fail-high child: cutoff fires
        have hFv : v ≤ Fm := tri.2.1 hbv
        have hpv : bp < v := lt_of_le_of_lt hpa (lt_of_lt_of_le hab hbv)
        have hsF : bs < Fm := lt_of_le_of_lt
          (le_trans hsp hpa) (lt_of_lt_of_le (lt_of_lt_of_le hab hbv) hFv)
        rw [if_pos hpv, if_pos hpv, if_pos hsF,
          max_eq_right (le_trans (le_of_lt hab) hbv),
          if_pos hbv]
        refine ⟨le_of_lt hpv, ?_, ?_, ?_⟩
        · intro hga
          exact absurd (lt_of_lt_of_le hab (le_trans hbv hga)) (lt_irrefl alpha)
        · intro _
          exact le_trans hFv (maxLoopS_mono e Fv b rest Fm (some m))
        · intro _ hgb
          exact absurd (lt_of_lt_of_le hgb hbv) (lt_irrefl v)

/-- Window-bound invariants of the pruned minimizing loop, mirror image. -/
theorem minLoop_val (e : Engine) (b : Board) (f : Board → Score → Score → Score)
    (Fv : Board → Score) (h : childTriples f Fv) :
    ∀ (L : List Move) (bp : Score) (bmp : Option Move) (bs : Score) (bms : Option Move)
      (alpha beta : Score), alpha < beta → bp ≤ bs → beta ≤ bp →
      (minLoop e f b L bp bmp alpha beta).1 ≤ bp ∧
      ((minLoop e f b L bp bmp alpha beta).1 ≤ alpha →
        (minLoopS e Fv b L bs bms).1 ≤ (minLoop e f b L bp bmp alpha beta).1) ∧
      (beta ≤ (minLoop e f b L bp bmp alpha beta).1 →
        (minLoop e f b L bp bmp alpha beta).1 ≤ (minLoopS e Fv b L bs bms).1) ∧
      (alpha < (minLoop e f b L bp bmp alpha beta).1 →
        (minLoop e f b L bp bmp alpha beta).1 < beta →
        (minLoop e f b L bp bmp alpha beta).1 = (minLoopS e Fv b L bs bms).1) := by
  intro L
  induction L with
  | nil =>
    intro bp bmp bs bms alpha beta hab hps hbp
    refine ⟨le_refl _, fun ha => absurd (lt_of_lt_of_le hab (le_trans hbp ha)) (lt_irrefl alpha),
      fun _ => hps, ?_⟩
    intro _ hgb
    exact absurd (lt_of_lt_of_le hgb hbp) (lt_irrefl _)
  | cons m rest ih =>
    intro bp bmp bs bms alpha beta hab hps hbp
    have tri := h (e.push b m) alpha beta hab
    simp only [minLoop, minLoopS]
    set v := f (e.push b m) alpha beta with hv
    set Fm := Fv (e.push b m) with hFm
    rcases le_or_lt beta v with hbv | hvb
    · -- fail-high child: true child value is above the window too
      have hFv : v ≤ Fm := tri.2.1 hbv
      have hmin : min beta v = beta := min_eq_left hbv
      rw [hmin, if_neg (not_le.mpr hab)]
      by_cases hvp : v < bp
      · rw [if_pos hvp, if_pos hvp]
        by_cases hFs : Fm < bs
        · rw [if_pos hFs]
          exact ⟨le_trans (ih v (some m) Fm (some m) alpha beta hab hFv hbv).1 (le_of_lt hvp),
            (ih v (some m) Fm (some m) alpha beta hab hFv hbv).2.1,
            (ih v (some m) Fm (some m) alpha beta hab hFv hbv).2.2.1,
            (ih v (some m) Fm (some m) alpha beta hab hFv hbv).2.2.2⟩
        · rw [if_neg hFs]
          have hvs : v ≤ bs := le_trans (le_of_lt hvp) hps
          exact ⟨le_trans (ih v (some m) bs bms alpha beta hab hvs hbv).1 (le_of_lt hvp),
            (ih v (some m) bs bms alpha beta hab hvs hbv).2.1,
            (ih v (some m) bs bms alpha beta hab hvs hbv).2.2.1,
            (ih v (some m) bs bms alpha beta hab hvs hbv).2.2.2⟩
      · rw [if_neg hvp, if_neg hvp]
        have hpv : bp ≤ v := not_lt.mp hvp
        by_cases hFs : Fm < bs
        · rw [if_pos hFs]
          have h2 : bp ≤ Fm := le_trans hpv hFv
          exact (ih bp bmp Fm (some m) alpha beta hab h2 hbp)
        · rw [if_neg hFs]
          exact (ih bp bmp bs bms alpha beta hab hps hbp)
    · rcases lt_or_le alpha v with hav | hva
      · -- in-window child: exact value
        have hveq : v = Fm := tri.2.2 hav hvb
        have hvp : v < bp := lt_of_lt_of_le hvb hbp
        have hFs : Fm < bs := lt_of_lt_of_le (hveq ▸ hvb) (le_trans hbp hps)
        rw [if_pos hvp, if_pos hvp, if_pos hFs, min_eq_right (le_of_lt hvb),
          if_neg (not_le.mpr hav)]
        have ihv := ih v (some m) Fm (some m) alpha v hav (le_of_eq hveq) (le_refl v)
        refine ⟨le_trans ihv.1 (le_of_lt hvp), ihv.2.1, ?_, ?_⟩
        · intro hbg
          exact absurd (lt_of_le_of_lt (le_trans hbg ihv.1) hvb) (lt_irrefl beta)
        · intro hga _
          rcases eq_or_lt_of_le ihv.1 with hveqg | hvlt
          · have h1 : (minLoop e f b rest v (some m) alpha v).1 ≤
                (minLoopS e Fv b rest Fm (some m)).1 :=
              ihv.2.2.1 (le_of_eq hveqg.symm)
            have h2 : (minLoopS e Fv b rest Fm (some m)).1 ≤ Fm :=
              minLoopS_mono e Fv b rest Fm (some m)
            have h3 : Fm ≤ (minLoop e f b rest v (some m) alpha v).1 := by
              rw [hveqg, hveq]
            exact le_antisymm h1 (le_trans h2 h3)
          · exact ihv.2.2.2 hga hvlt
      · -- fail-low child: cutoff fires
        have hFv : Fm ≤ v := tri.1 hva
        have hvp : v < bp := lt_of_le_of_lt hva (lt_of_lt_of_le hab hbp)
        have hFs : Fm < bs := lt_of_le_of_lt
          (le_trans hFv hva) (lt_of_lt_of_le hab (le_trans hbp hps))
        rw [if_pos hvp, if_pos hvp, if_pos hFs,
          min_eq_right (le_trans hva (le_of_lt hab)),
          if_pos hva]
        refine ⟨le_of_lt hvp, ?_, ?_, ?_⟩
        · intro _
          exact le_trans (minLoopS_mono e Fv b rest Fm (some m)) hFv
        · intro hbg
          exact absurd (lt_of_le_of_lt (le_trans hbg hva) hab) (lt_irrefl beta)
        · intro hga _
          exact absurd (lt_of_le_of_lt hva hga) (lt_irrefl v)

/-- At the full window the pruned maximizing loop coincides with the
unpruned one exactly (value and move), provided the running best equals
alpha and has not saturated at `⊤`. -/
theorem maxLoop_pair (e : Engine) (b : Board) (f : Board → Score → Score → Score)
    (Fv : Board → Score) (h : childTriples f Fv) :
    ∀ (L : List Move) (best : Score) (bm : Option Move), best < ⊤ →
      maxLoop e f b L best bm best ⊤ = maxLoopS e Fv b L best bm := by
  intro L
  induction L with
  | nil => intro best bm _; simp [maxLoop, maxLoopS]
  | cons m rest ih =>
    intro best bm hbt
    have tri := h (e.push b m) best ⊤ hbt
    simp only [maxLoop, maxLoopS]
    set v := f (e.push b m) best ⊤ with hv
    set Fm := Fv (e.push b m) with hFm
    rcases le_or_lt v best with hvb | hbv
    · have hFv : Fm ≤ v := tri.1 hvb
      have hnt : ¬ (⊤ : Score) ≤ max best v := by
        rw [max_eq_left hvb]
        exact fun hh => lt_irrefl _ (lt_of_lt_of_le hbt hh)
      rw [if_neg (not_lt.mpr hvb), if_neg (not_lt.mpr hvb), if_neg hnt,
        if_neg (not_lt.mpr (le_trans hFv hvb)), max_eq_left hvb]
      exact ih best bm hbt
    · rcases eq_or_lt_of_le (le_top : v ≤ ⊤) with htop | hvt
      · have hFt : Fm = ⊤ := top_le_iff.mp (htop ▸ tri.2.1 (le_of_eq htop.symm))
        have hbF : best < Fm := hFt ▸ hbt
        rw [if_pos hbv, if_pos hbv, if_pos hbF, max_eq_right (le_of_lt hbv),
          if_pos (le_of_eq htop.symm), hFt, maxLoopS_top]
        rw [htop]
      · have hveq : v = Fm := tri.2.2 hbv hvt
        have hbF : best < Fm := hveq ▸ hbv
        have hnt : ¬ (⊤ : Score) ≤ v := fun hh => lt_irrefl _ (lt_of_lt_of_le hvt hh)
        rw [if_pos hbv, if_pos hbv, if_pos hbF, max_eq_right (le_of_lt hbv), if_neg hnt,
          ← hveq]
        exact ih v (some m) hvt

/-- At the full window the pruned minimizing loop coincides with the
unpruned one exactly (value and move), mirror image. -/
theorem minLoop_pair (e : Engine) (b : Board) (f : Board → Score → Score → Score)
    (Fv : Board → Score) (h : childTriples f Fv) :
    ∀ (L : List Move) (best : Score) (bm : Option Move), ⊥ < best →
      minLoop e f b L best bm ⊥ best = minLoopS e Fv b L best bm := by
  intro L
  induction L with
  | nil => intro best bm _; simp [minLoop, minLoopS]
  | cons m rest ih =>
    intro best bm hbb
    have tri := h (e.push b m) ⊥ best hbb
    simp only [minLoop, minLoopS]
    set v := f (e.push b m) ⊥ best with hv
    set Fm := Fv (e.push b m) with hFm
    rcases le_or_lt best v with hbv | hvb
    · have hFv : v ≤ Fm := tri.2.1 hbv
      have hnb : ¬ min best v ≤ (⊥ : Score) := by
        rw [min_eq_left hbv]
        exact fun hh => lt_irrefl _ (lt_of_le_of_lt hh hbb)
      rw [if_neg (not_lt.mpr hbv), if_neg (not_lt.mpr hbv), if_neg hnb,
        if_neg (not_lt.mpr (le_trans hbv hFv)), min_eq_left hbv]
      exact ih best bm hbb
    · rcases eq_or_lt_of_le (bot_le : (⊥ : Score) ≤ v) with hbot | hvb2
      · have hvb0 : v ≤ ⊥ := le_of_eq hbot.symm
        have hFb : Fm = ⊥ := le_bot_iff.mp (le_trans (tri.1 hvb0) hvb0)
        have hbF : Fm < best := hFb ▸ hbb
        rw [if_pos hvb, if_pos hvb, if_pos hbF, min_eq_right (le_of_lt hvb),
          if_pos hvb0, hFb, minLoopS_bot]
        rw [← hbot]
      · have hveq : v = Fm := tri.2.2 hvb2 hvb
        have hbF : Fm < best := hveq ▸ hvb
        have hnb : ¬ v ≤ (⊥ : Score) := fun hh => lt_irrefl _ (lt_of_le_of_lt hh hvb2)
        rw [if_pos hvb, if_pos hvb, if_pos hbF, min_eq_right (le_of_lt hvb), if_neg hnb,
          ← hveq]
        exact ih v (some m) hvb2

/-- The Knuth-Moore window bounds for the shared `minimax` against the
unpruned minimax, by induction on the depth. -/
theorem minimaxP_triples (e : Engine) (ev : Board → ℤ) (evm : Board → Move → ℚ) :
    ∀ (d : Nat) (b : Board) (alpha beta : Score) (p : Bool), alpha < beta →
      ((minimaxP e ev evm d b alpha beta p).1 ≤ alpha →
        (minimaxSpecP e ev evm d b p).1 ≤ (minimaxP e ev evm d b alpha beta p).1) ∧
      (beta ≤ (minimaxP e ev evm d b alpha beta p).1 →
        (minimaxP e ev evm d b alpha beta p).1 ≤ (minimaxSpecP e ev evm d b p).1) ∧
      (alpha < (minimaxP e ev evm d b alpha beta p).1 →
        (minimaxP e ev evm d b alpha beta p).1 < beta →
        (minimaxP e ev evm d b alpha beta p).1 = (minimaxSpecP e ev evm d b p).1) := by
  intro d
  induction d with
  | zero =>
    intro b alpha beta p _
    simp [minimaxP, minimaxSpecP]
  | succ d ih =>
    intro b alpha beta p hab
    by_cases hgo : b.gameOver
    · simp [minimaxP, minimaxSpecP, if_pos hgo]
    · cases p with
      | true =>
        simp only [minimaxP, minimaxSpecP, if_neg hgo, if_pos]
        have hc : childTriples (fun b2 a2 be2 => (minimaxP e ev evm d b2 a2 be2 false).1)
            (fun b2 => (minimaxSpecP e ev evm d b2 false).1) :=
          fun b2 a2 be2 h2 => ih b2 a2 be2 false h2
        have hval := maxLoop_val e b _ _ hc (orderedMoves e evm true b)
          ⊥ none ⊥ none alpha beta hab (le_refl _) bot_le
        exact ⟨hval.2.1, hval.2.2.1, hval.2.2.2⟩
      | false =>
        simp only [minimaxP, minimaxSpecP, if_neg hgo]
        have hc : childTriples (fun b2 a2 be2 => (minimaxP e ev evm d b2 a2 be2 true).1)
            (fun b2 => (minimaxSpecP e ev evm d b2 true).1) :=
          fun b2 a2 be2 h2 => ih b2 a2 be2 true h2
        have hval := minLoop_val e b _ _ hc (orderedMoves e evm false b)
          ⊤ none ⊤ none alpha beta hab (le_refl _) le_top
        exact ⟨hval.2.1, hval.2.2.1, hval.2.2.2⟩

/-- At the full window `(-inf, +inf)` the shared alpha-beta `minimax`
returns exactly the unpruned minimax result: value and move. -/
theorem minimaxP_full_window (e : Engine) (ev : Board → ℤ) (evm : Board → Move → ℚ)
    (d : Nat) (b : Board) (p : Bool) :
    minimaxP e ev evm d b ⊥ ⊤ p = minimaxSpecP e ev evm d b p := by
  cases d with
  | zero => simp [minimaxP, minimaxSpecP]
  | succ d =>
    by_cases hgo : b.gameOver
    · simp [minimaxP, minimaxSpecP, if_pos hgo]
    · cases p with
      | true =>
        simp only [minimaxP, minimaxSpecP, if_neg hgo]
        have hc : childTriples (fun b2 a2 be2 => (minimaxP e ev evm d b2 a2 be2 false).1)
            (fun b2 => (minimaxSpecP e ev evm d b2 false).1) :=
          fun b2 a2 be2 h2 => minimaxP_triples e ev evm d b2 a2 be2 false h2
        exact maxLoop_pair e b _ _ hc (orderedMoves e evm true b) ⊥ none bot_lt_top
      | false =>
        simp only [minimaxP, minimaxSpecP, if_neg hgo]
        have hc : childTriples (fun b2 a2 be2 => (minimaxP e ev evm d b2 a2 be2 true).1)
            (fun b2 => (minimaxSpecP e ev evm d b2 true).1) :=
          fun b2 a2 be2 h2 => minimaxP_triples e ev evm d b2 a2 be2 true h2
        exact minLoop_pair e b _ _ hc (orderedMoves e evm false b) ⊤ none bot_lt_top

end AB

namespace Bridge

/-! Bridging the mutable-board execution model to its pure value: every
stateful routine of V1 computes the pure value of the current position and
returns the mutable board in exactly its input state. -/

theorem bpop_bpush (e : Engine) (st : BState) (m : Move) : bpop (bpush e st m) = st := rfl

theorem evaluate_moveS_pure (e : Engine) (st : BState) (m : Move) :
    V1.evaluate_moveS e st m = (V1.evaluate_move e st.cur m, st) := rfl

theorem sortKeysS_pure (e : Engine) :
    ∀ (ms : List Move) (st : BState),
      sortKeysS e V1.evaluate_moveS st ms =
        (ms.map (fun m => (V1.evaluate_move e st.cur m, m)), st) := by
  intro ms
  induction ms with
  | nil => intro st; simp [sortKeysS]
  | cons m rest ih =>
    intro st
    simp [sortKeysS, evaluate_moveS_pure, ih]

theorem maxLoopSt_pure (e : Engine) (f0 : Board → Score → Score → Score × Option Move)
    (rec : BState → Score → Score → (Score × Option Move) × BState)
    (hrec : ∀ (st2 : BState) (a2 b2 : Score), rec st2 a2 b2 = (f0 st2.cur a2 b2, st2)) :
    ∀ (L : List Move) (st : BState) (best : Score) (bm : Option Move) (alpha beta : Score),
      maxLoopSt e rec L st best bm alpha beta =
        (maxLoop e (fun bd a2 b2 => (f0 bd a2 b2).1) st.cur L best bm alpha beta, st) := by
  intro L
  induction L with
  | nil => intro st best bm alpha beta; simp [maxLoopSt, maxLoop]
  | cons m rest ih =>
    intro st best bm alpha beta
    simp only [maxLoopSt, maxLoop, hrec, bpop_bpush, bpush]
    split
    · rfl
    · exact ih st _ _ _ _

theorem minLoopSt_pure (e : Engine) (f0 : Board → Score → Score → Score × Option Move)
    (rec : BState → Score → Score → (Score × Option Move) × BState)
    (hrec : ∀ (st2 : BState) (a2 b2 : Score), rec st2 a2 b2 = (f0 st2.cur a2 b2, st2)) :
    ∀ (L : List Move) (st : BState) (best : Score) (bm : Option Move) (alpha beta : Score),
      minLoopSt e rec L st best bm alpha beta =
        (minLoop e (fun bd a2 b2 => (f0 bd a2 b2).1) st.cur L best bm alpha beta, st) := by
  intro L
  induction L with
  | nil => intro st best bm alpha beta; simp [minLoopSt, minLoop]
  | cons m rest ih =>
    intro st best bm alpha beta
    simp only [minLoopSt, minLoop, hrec, bpop_bpush, bpush]
    split
    · rfl
    · exact ih st _ _ _ _

theorem minimaxS_pure (e : Engine) :
    ∀ (d : Nat) (st : BState) (alpha beta : Score) (p : Bool),
      V1.minimaxS e d st alpha beta p = (V1.minimax e d st.cur alpha beta p, st) := by
  intro d
  induction d with
  | zero => intro st alpha beta p; simp [V1.minimaxS, V1.minimax, minimaxP]
  | succ d ih =>
    intro st alpha beta p
    by_cases hgo : st.cur.gameOver
    · simp [V1.minimaxS, V1.minimax, minimaxP, hgo]
    · simp only [V1.minimaxS, V1.minimax, minimaxP, if_neg hgo, sortKeysS_pure]
      cases p with
      | true =>
        simp only [if_pos]
        exact maxLoopSt_pure e (fun bd a2 b2 => V1.minimax e d bd a2 b2 false)
          (fun st2 a2 be2 => V1.minimaxS e d st2 a2 be2 false)
          (fun st2 a2 be2 => ih st2 a2 be2 false) _ st ⊥ none alpha beta
      | false =>
        simp only [Bool.false_eq_true, if_neg]
        exact minLoopSt_pure e (fun bd a2 b2 => V1.minimax e d bd a2 b2 true)
          (fun st2 a2 be2 => V1.minimaxS e d st2 a2 be2 true)
          (fun st2 a2 be2 => ih st2 a2 be2 true) _ st ⊤ none alpha beta

theorem mateScanS_pure (e : Engine) :
    ∀ (L : List Move) (st : BState),
      V1.mateScanS e st L = (L.find? (fun m => (e.push st.cur m).checkmate), st) := by
  intro L
  induction L with
  | nil => intro st; simp [V1.mateScanS]
  | cons m rest ih =>
    intro st
    simp only [V1.mateScanS, bpop_bpush, List.find?]
    by_cases hm : (e.push st.cur m).checkmate
    · simp [bpush, hm]
    · simp only [bpush] at hm ⊢
      simp [hm, ih]

theorem idLoopS_pure (e : Engine) (t : Nat → Bool) :
    ∀ (k cur : Nat) (best : Option Move) (st : BState),
      V1.idLoopS e t k cur best st = (V1.idLoop e t st.cur k cur best, st) := by
  intro k
  induction k with
  | zero => intro cur best st; simp [V1.idLoopS, V1.idLoop]
  | succ k ih =>
    intro cur best st
    simp only [V1.idLoopS, V1.idLoop, minimaxS_pure]
    split
    · rfl
    · exact ih _ _ st

theorem get_ai_moveS_pure (e : Engine) (st : BState) (depth : Nat) (t : Nat → Bool) :
    V1.get_ai_moveS e st depth t = (V1.get_ai_move e st.cur depth t, st) := by
  simp only [V1.get_ai_moveS, V1.get_ai_move, mateScanS_pure]
  cases hf : (e.legalMoves st.cur).find? (fun m => (e.push st.cur m).checkmate) with
  | none => simp [idLoopS_pure]
  | some m => simp

end Bridge

/-- C1: for every rules engine, position, depth and maximizing flag, the
alpha-beta `minimax` of V1 invoked with the full window
`(float('-inf'), float('inf'))` returns exactly the (value, move) pair of
the unpruned minimax search of the same tree - same evaluator, same move
order, ties kept by the earliest-found move. -/
theorem claim_C1_alphabeta_equals_unpruned_minimax (e : Engine) (d : Nat) (b : Board)
    (p : Bool) : V1.minimax e d b ⊥ ⊤ p = V1.minimaxSpec e d b p :=
  AB.minimaxP_full_window e V1.evaluate_board (V1.evaluate_move e) d b p

/-- C7: every call of the search (`minimax`), of the move-ordering probe
(`evaluate_move`), and of the top-level chooser (`get_ai_move`) returns the
mutable board in exactly its input state - same current position and same
undo stack - on every exit path, cutoffs and the mate-in-one fast path
included. -/
theorem claim_C7_state_restoration :
    (∀ (e : Engine) (st : BState) (m : Move), (V1.evaluate_moveS e st m).2 = st) ∧
    (∀ (e : Engine) (d : Nat) (st : BState) (alpha beta : Score) (p : Bool),
      (V1.minimaxS e d st alpha beta p).2 = st) ∧
    (∀ (e : Engine) (st : BState) (depth : Nat) (t : Nat → Bool),
      (V1.get_ai_moveS e st depth t).2 = st) :=
  ⟨fun e st m => by rw [Bridge.evaluate_moveS_pure],
   fun e d st alpha beta p => by rw [Bridge.minimaxS_pure],
   fun e st depth t => by rw [Bridge.get_ai_moveS_pure]⟩

/-- C10: `minimax` is deterministic - its result depends only on the
current position, depth, window and maximizing flag (in particular not on
the undo history of the mutable board, nor on any clock or randomness,
which its execution model does not consult). -/
theorem claim_C10_minimax_deterministic (e : Engine) (d : Nat) (b : Board)
    (h1 h2 : List Board) (alpha beta : Score) (p : Bool) :
    (V1.minimaxS e d ⟨b, h1⟩ alpha beta p).1 = (V1.minimaxS e d ⟨b, h2⟩ alpha beta p).1 := by
  rw [Bridge.minimaxS_pure, Bridge.minimaxS_pure]

namespace Chooser

/-! Helper lemmas about the top-level choosers (claims C2, C3, C8). -/

theorem zScore_ne_bot (z : ℤ) : zScore z ≠ ⊥ := WithBot.coe_ne_bot

theorem zScore_ne_top (z : ℤ) : zScore z ≠ ⊤ := by
  simp only [zScore]
  intro h
  exact WithTop.coe_ne_top (WithBot.coe_inj.mp h)

theorem stableInsert_length (le : ℚ × Move → ℚ × Move → Bool) (x : ℚ × Move) :
    ∀ l : List (ℚ × Move), (stableInsert le x l).length = l.length + 1 := by
  intro l
  induction l with
  | nil => simp [stableInsert]
  | cons y ys ih =>
    simp only [stableInsert]
    split
    · simp [ih]
    · simp

theorem stableSort_go_length (le : ℚ × Move → ℚ × Move → Bool) :
    ∀ (l acc : List (ℚ × Move)),
      (l.foldl (fun acc2 x => stableInsert le x acc2) acc).length = acc.length + l.length := by
  intro l
  induction l with
  | nil => intro acc; simp
  | cons x xs ih =>
    intro acc
    simp only [List.foldl_cons]
    rw [ih, stableInsert_length]
    simp only [List.length_cons]
    omega

theorem orderedMoves_length (e : Engine) (evm : Board → Move → ℚ) (maxP : Bool) (b : Board) :
    (orderedMoves e evm maxP b).length = (e.legalMoves b).length := by
  simp only [orderedMoves, pySortKeyed, stableSort]
  split <;> simp [stableSort_go_length]

theorem orderedMoves_of_no_moves (e : Engine) (evm : Board → Move → ℚ) (maxP : Bool)
    (b : Board) (h : e.legalMoves b = []) : orderedMoves e evm maxP b = [] := by
  have := orderedMoves_length e evm maxP b
  rw [h] at this
  exact List.length_eq_zero.mp this

/-- With no legal moves the search returns no move, at every depth and in
both terminal branches. -/
theorem minimaxP_move_none (e : Engine) (ev : Board → ℤ) (evm : Board → Move → ℚ)
    (d : Nat) (b : Board) (alpha beta : Score) (p : Bool)
    (h : e.legalMoves b = []) : (minimaxP e ev evm d b alpha beta p).2 = none := by
  cases d with
  | zero => simp [minimaxP]
  | succ d =>
    by_cases hgo : b.gameOver
    · simp [minimaxP, hgo]
    · simp only [minimaxP, if_neg hgo, orderedMoves_of_no_moves e evm _ b h]
      cases p <;> simp [maxLoop, minLoop]

theorem idLoop_none_of_no_moves (e : Engine) (t : Nat → Bool) (b : Board)
    (h : e.legalMoves b = []) :
    ∀ (k cur : Nat), V1.idLoop e t b k cur none = none := by
  intro k
  induction k with
  | zero => intro cur; simp [V1.idLoop]
  | succ k ih =>
    intro cur
    simp only [V1.idLoop, V1.minimax, minimaxP_move_none e _ _ _ _ _ _ _ h]
    split
    · rfl
    · exact ih (cur + 1)

/-- The maximizing loop keeps a live (finite) best value and a chosen move
once it has them, when every child value is finite. -/
theorem maxLoop_live_aux (e : Engine) (b : Board) (f : Board → Score → Score → Score)
    (hf : ∀ (b2 : Board) (a2 b3 : Score), f b2 a2 b3 ≠ ⊥ ∧ f b2 a2 b3 ≠ ⊤) :
    ∀ (L : List Move) (best : Score) (bm : Option Move) (alpha beta : Score),
      best ≠ ⊥ → best ≠ ⊤ → bm.isSome = true →
      (maxLoop e f b L best bm alpha beta).1 ≠ ⊥ ∧
      (maxLoop e f b L best bm alpha beta).1 ≠ ⊤ ∧
      (maxLoop e f b L best bm alpha beta).2.isSome = true := by
  intro L
  induction L with
  | nil => intro best bm alpha beta h1 h2 h3; exact ⟨h1, h2, h3⟩
  | cons m rest ih =>
    intro best bm alpha beta h1 h2 h3
    simp only [maxLoop]
    have hv := hf (e.push b m) alpha beta
    split
    · constructor
      · split
        · exact hv.1
        · exact h1
      · constructor
        · split
          · exact hv.2
          · exact h2
        · split
          · rfl
          · exact h3
    · apply ih
      · split
        · exact hv.1
        · exact h1
      · split
        · exact hv.2
        · exact h2
      · split
        · rfl
        · exact h3

/-- The minimizing loop, mirror image. -/
theorem minLoop_live_aux (e : Engine) (b : Board) (f : Board → Score → Score → Score)
    (hf : ∀ (b2 : Board) (a2 b3 : Score), f b2 a2 b3 ≠ ⊥ ∧ f b2 a2 b3 ≠ ⊤) :
    ∀ (L : List Move) (best : Score) (bm : Option Move) (alpha beta : Score),
      best ≠ ⊥ → best ≠ ⊤ → bm.isSome = true →
      (minLoop e f b L best bm alpha beta).1 ≠ ⊥ ∧
      (minLoop e f b L best bm alpha beta).1 ≠ ⊤ ∧
      (minLoop e f b L best bm alpha beta).2.isSome = true := by
  intro L
  induction L with
  | nil => intro best bm alpha beta h1 h2 h3; exact ⟨h1, h2, h3⟩
  | cons m rest ih =>
    intro best bm alpha beta h1 h2 h3
    simp only [minLoop]
    have hv := hf (e.push b m) alpha beta
    split
    · constructor
      · split
        · exact hv.1
        · exact h1
      · constructor
        · split
          · exact hv.2
          · exact h2
        · split
          · rfl
          · exact h3
    · apply ih
      · split
        · exact hv.1
        · exact h1
      · split
        · exact hv.2
        · exact h2
      · split
        · rfl
        · exact h3

/-- From the initial accumulators and a nonempty move list, the maximizing
loop returns a finite value and some move. -/
theorem maxLoop_live (e : Engine) (b : Board) (f : Board → Score → Score → Score)
    (hf : ∀ (b2 : Board) (a2 b3 : Score), f b2 a2 b3 ≠ ⊥ ∧ f b2 a2 b3 ≠ ⊤)
    (m : Move) (rest : List Move) (alpha beta : Score) :
    (maxLoop e f b (m :: rest) ⊥ none alpha beta).1 ≠ ⊥ ∧
    (maxLoop e f b (m :: rest) ⊥ none alpha beta).1 ≠ ⊤ ∧
    (maxLoop e f b (m :: rest) ⊥ none alpha beta).2.isSome = true := by
  simp only [maxLoop]
  have hv := hf (e.push b m) alpha beta
  have hlt : (⊥ : Score) < f (e.push b m) alpha beta := bot_lt_iff_ne_bot.mpr hv.1
  rw [if_pos hlt, if_pos hlt]
  split
  · exact ⟨hv.1, hv.2, rfl⟩
  · exact maxLoop_live_aux e b f hf rest _ (some m) _ beta hv.1 hv.2 rfl

/-- From the initial accumulators and a nonempty move list, the minimizing
loop returns a finite value and some move. -/
theorem minLoop_live (e : Engine) (b : Board) (f : Board → Score → Score → Score)
    (hf : ∀ (b2 : Board) (a2 b3 : Score), f b2 a2 b3 ≠ ⊥ ∧ f b2 a2 b3 ≠ ⊤)
    (m : Move) (rest : List Move) (alpha beta : Score) :
    (minLoop e f b (m :: rest) ⊤ none alpha beta).1 ≠ ⊥ ∧
    (minLoop e f b (m :: rest) ⊤ none alpha beta).1 ≠ ⊤ ∧
    (minLoop e f b (m :: rest) ⊤ none alpha beta).2.isSome = true := by
  simp only [minLoop]
  have hv := hf (e.push b m) alpha beta
  have hlt : f (e.push b m) alpha beta < (⊤ : Score) := lt_top_iff_ne_top.mpr hv.2
  rw [if_pos hlt, if_pos hlt]
  split
  · exact ⟨hv.1, hv.2, rfl⟩
  · exact minLoop_live_aux e b f hf rest _ (some m) alpha _ hv.1 hv.2 rfl

/-- When the rules engine guarantees that move-less positions are game
over, every search value is finite, and a search of positive depth from a
live position returns a move. -/
theorem minimax_live (e : Engine) (ev : Board → ℤ) (evm : Board → Move → ℚ)
    (hcons : ∀ b2 : Board, e.legalMoves b2 = [] → b2.gameOver = true) :
    ∀ (d : Nat) (b : Board) (alpha beta : Score) (p : Bool),
      ((minimaxP e ev evm d b alpha beta p).1 ≠ ⊥ ∧
       (minimaxP e ev evm d b alpha beta p).1 ≠ ⊤) ∧
      (b.gameOver = false → 1 ≤ d → (minimaxP e ev evm d b alpha beta p).2.isSome = true) := by
  intro d
  induction d with
  | zero =>
    intro b alpha beta p
    exact ⟨⟨zScore_ne_bot _, zScore_ne_top _⟩, fun _ h => absurd h (by omega)⟩
  | succ d ih =>
    intro b alpha beta p
    by_cases hgo : b.gameOver
    · simp only [minimaxP, if_pos hgo]
      exact ⟨⟨zScore_ne_bot _, zScore_ne_top _⟩, fun hfalse _ => by rw [hgo] at hfalse; cases hfalse⟩
    · have hmoves : e.legalMoves b ≠ [] := by
        intro hnil
        rw [hcons b hnil] at hgo
        exact hgo rfl
      have hlist : orderedMoves e evm p b ≠ [] := by
        intro hnil
        apply hmoves
        have := orderedMoves_length e evm p b
        rw [hnil] at this
        exact List.length_eq_zero.mp this.symm
      simp only [minimaxP, if_neg hgo]
      obtain ⟨m, rest, hL⟩ := List.exists_cons_of_ne_nil hlist
      cases p with
      | true =>
        simp only [if_pos]
        rw [hL]
        have hv := fun (b2 : Board) (a2 b3 : Score) => (ih b2 a2 b3 false).1
        have res := maxLoop_live e b _ hv m rest alpha beta
        exact ⟨⟨res.1, res.2.1⟩, fun _ _ => res.2.2⟩
      | false =>
        simp only [Bool.false_eq_true, if_neg]
        rw [hL]
        have hv := fun (b2 : Board) (a2 b3 : Score) => (ih b2 a2 b3 true).1
        have res := minLoop_live e b _ hv m rest alpha beta
        exact ⟨⟨res.1, res.2.1⟩, fun _ _ => res.2.2⟩

/-- The V1 iterative-deepening loop returns the move of one fully
completed search, at a depth in the attempted range. -/
theorem idLoop_result (e : Engine) (t : Nat → Bool) (b : Board) :
    ∀ (k cur : Nat) (best : Option Move), 1 ≤ k →
      ∃ d, cur ≤ d ∧ d < cur + k ∧
        V1.idLoop e t b k cur best = (V1.minimax e d b ⊥ ⊤ (!b.turn)).2 := by
  intro k
  induction k with
  | zero => intro cur best h; exact absurd h (by omega)
  | succ k ih =>
    intro cur best _
    simp only [V1.idLoop]
    split
    · exact ⟨cur, le_refl _, by omega, rfl⟩
    · cases Nat.eq_zero_or_pos k with
      | inl h0 =>
        subst h0
        exact ⟨cur, le_refl _, by omega, by simp [V1.idLoop]⟩
      | inr hk =>
        obtain ⟨d, h1, h2, h3⟩ := ih (cur + 1) _ hk
        exact ⟨d, by omega, by omega, h3⟩

/-- Once the `find_best_move` loop holds a move, it returns a move: the
best move is only ever replaced by another move, never cleared. -/
theorem fbmLoop_keeps_some (e : Engine) (b : Board) (d : Nat) :
    ∀ (ms : List Move) (t : ChessEndgameSolver.TTable) (best : SScore) (m0 : Move),
    ∃ m2, (ChessEndgameSolver.fbmLoop e b d ms t best (some m0)).1 = some m2
  | [], _, _, m0 => ⟨m0, rfl⟩
  | m :: rest, t, best, m0 => by
    simp only [ChessEndgameSolver.fbmLoop]
    split
    · split
      · exact fbmLoop_keeps_some e b d rest _ _ m
      · exact fbmLoop_keeps_some e b d rest _ _ m0
    · split
      · exact fbmLoop_keeps_some e b d rest _ _ m
      · exact fbmLoop_keeps_some e b d rest _ _ m0

end Chooser

/-- C2 (amended): both top-level choosers return no move when the position
has no legal moves.  Conversely, `get_ai_move` returns some move when the
position has a legal move, is not game over, and `maxDepth >= 1` (given
the rules-engine guarantee that move-less positions are game over) - a
game-over position with legal moves, however, yields `none`; and
`find_best_move` returns some move only when a child search value
strictly beats the `-inf` / `inf` initialization of `best_value`, as when
the first child's full-window value beats it - a live position with legal
moves whose child values are all `-math.inf` yields `None`.  See the
counterexample for both failures of the original iff. -/
theorem claim_C2_amended (e : Engine) (b : Board) (D : Nat) (t : Nat → Bool)
    (tt : ChessEndgameSolver.TTable) :
    (e.legalMoves b = [] → V1.get_ai_move e b D t = none ∧
      (ChessEndgameSolver.find_best_move e b D tt).1 = none) ∧
    ((∀ b2 : Board, e.legalMoves b2 = [] → b2.gameOver = true) →
      e.legalMoves b ≠ [] → b.gameOver = false → 1 ≤ D →
      ∃ m, V1.get_ai_move e b D t = some m) ∧
    (∀ (m : Move) (ms : List Move), e.legalMoves b = m :: ms → b.turn = true → 1 ≤ D →
      ⊥ < (ChessEndgameSolver.fbmChildValue e b D tt m).1 →
      ∃ m2, (ChessEndgameSolver.find_best_move e b D tt).1 = some m2) := by
  refine ⟨?_, ?_, ?_⟩
  · intro hnil
    constructor
    · unfold V1.get_ai_move
      rw [hnil]
      simp only [List.find?_nil]
      exact Chooser.idLoop_none_of_no_moves e t b hnil D 1
    · unfold ChessEndgameSolver.find_best_move
      rw [hnil]
      rfl
  · intro hcons _ hgo hD
    unfold V1.get_ai_move
    cases hf : (e.legalMoves b).find? (fun m2 => (e.push b m2).checkmate) with
    | some m => exact ⟨m, rfl⟩
    | none =>
      obtain ⟨d, h1, _, h3⟩ := Chooser.idLoop_result e t b D 1 none hD
      rw [h3]
      have hsome := (Chooser.minimax_live e V1.evaluate_board (V1.evaluate_move e) hcons
        d b ⊥ ⊤ (!b.turn)).2 hgo h1
      obtain ⟨m, hm⟩ := Option.isSome_iff_exists.mp hsome
      exact ⟨m, hm⟩
  · intro m ms hl ht _ hlt
    unfold ChessEndgameSolver.find_best_move
    rw [hl, if_pos ht]
    simp only [ChessEndgameSolver.fbmLoop]
    rw [if_pos ht, if_pos hlt]
    exact Chooser.fbmLoop_keeps_some e b D ms _ _ m

/-- C2 counterexample, both choosers.  `get_ai_move`: with two bare kings
(insufficient material, hence game over) White still has eight legal king
moves, yet no move is returned.  `find_best_move`: a lone white king
against king and rook is not game over and has legal moves, yet at the
default depth 3 every child search value is `-math.inf` (every leaf lacks
the white rook the solver evaluator expects), `current_value > best_value`
never fires against the `-math.inf` initialization, and `None` is
returned - refuting "returns None only when there is no legal move" on a
live position. -/
theorem claim_C2_counterexample :
    (RulesKRK.engine.legalMoves Cex.kkBoard ≠ [] ∧
      Cex.kkBoard.gameOver = true ∧
      V1.get_ai_move RulesKRK.engine Cex.kkBoard 3 Cex.noTimeUp = none) ∧
    (Cex.fbmEngine.legalMoves Cex.fbmRoot ≠ [] ∧
      Cex.fbmRoot.gameOver = false ∧
      (ChessEndgameSolver.find_best_move Cex.fbmEngine Cex.fbmRoot 3 []).1 = none) := by
  decide

/-- C2 witness: the amended claim applied to a concrete engine - a
move-less game-over position yields `none` from both choosers; a live
position with one legal move yields a move from `get_ai_move`, and from
`find_best_move` because the first child value (0, a drawn child) beats
the `-inf` initialization. -/
theorem claim_C2_witness :
    (V1.get_ai_move Cex.wEngine Cex.termBoard 3 Cex.noTimeUp = none ∧
      (ChessEndgameSolver.find_best_move Cex.wEngine Cex.termBoard 3 []).1 = none) ∧
    (∃ m, V1.get_ai_move Cex.wEngine Cex.liveBoard 1 Cex.noTimeUp = some m) ∧
    (∃ m2, (ChessEndgameSolver.find_best_move Cex.wEngine Cex.liveBoard 1 []).1 = some m2) :=
  ⟨(claim_C2_amended Cex.wEngine Cex.termBoard 3 Cex.noTimeUp []).1 (by decide),
   (claim_C2_amended Cex.wEngine Cex.liveBoard 1 Cex.noTimeUp []).2.1
     (fun b2 hb2 => by
       by_cases h : b2.gameOver
       · exact h
       · simp [Cex.wEngine, h] at hb2)
     (by decide) (by decide) (by decide),
   (claim_C2_amended Cex.wEngine Cex.liveBoard 1 Cex.noTimeUp []).2.2 ⟨0, 1⟩ []
     (by decide) (by decide) (by decide) (by decide)⟩

/-- C8: with `maxDepth >= 1`, `get_ai_move` returns either the mate-in-one
fast-path move, or exactly the move of one fully completed depth-`d`
search with `1 <= d <= maxDepth` - the model consults the time oracle only
between completed depths, and a result never comes from a partial
iteration. -/
theorem claim_C8_only_completed_depths (e : Engine) (b : Board) (D : Nat) (t : Nat → Bool)
    (hD : 1 ≤ D) :
    (∃ m, (e.legalMoves b).find? (fun m2 => (e.push b m2).checkmate) = some m ∧
      V1.get_ai_move e b D t = some m) ∨
    (∃ d, 1 ≤ d ∧ d ≤ D ∧
      V1.get_ai_move e b D t = (V1.minimax e d b ⊥ ⊤ (!b.turn)).2) := by
  unfold V1.get_ai_move
  cases hf : (e.legalMoves b).find? (fun m2 => (e.push b m2).checkmate) with
  | some m => exact Or.inl ⟨m, rfl, rfl⟩
  | none =>
    obtain ⟨d, h1, h2, h3⟩ := Chooser.idLoop_result e t b D 1 none hD
    exact Or.inr ⟨d, h1, by omega, h3⟩

/-- C8 witness: the theorem applied to a concrete engine and position. -/
theorem claim_C8_witness :
    (∃ m, (Cex.wEngine.legalMoves Cex.liveBoard).find?
        (fun m2 => (Cex.wEngine.push Cex.liveBoard m2).checkmate) = some m ∧
      V1.get_ai_move Cex.wEngine Cex.liveBoard 2 Cex.noTimeUp = some m) ∨
    (∃ d, 1 ≤ d ∧ d ≤ 2 ∧
      V1.get_ai_move Cex.wEngine Cex.liveBoard 2 Cex.noTimeUp =
        (V1.minimax Cex.wEngine d Cex.liveBoard ⊥ ⊤ (!Cex.liveBoard.turn)).2) :=
  claim_C8_only_completed_depths Cex.wEngine Cex.liveBoard 2 Cex.noTimeUp (by decide)

/-- C3 (amended): the fast-path chooser (V1 `get_ai_move`) returns a move
after which the position is checkmate whenever the side to move has a mate
in one, for every maxDepth and time oracle.  The no-fast-path chooser (V3
`get_ai_move`) does not: with Black (the minimizing side) to move and
maxDepth 3 it can return a non-mating move - see the counterexample. -/
theorem claim_C3_amended (e : Engine) (b : Board) (depth : Nat) (t : Nat → Bool)
    (h : ∃ m ∈ e.legalMoves b, (e.push b m).checkmate = true) :
    ∃ m2, V1.get_ai_move e b depth t = some m2 ∧ (e.push b m2).checkmate = true := by
  unfold V1.get_ai_move
  have hsome : ((e.legalMoves b).find? (fun m2 => (e.push b m2).checkmate)).isSome = true := by
    rw [List.find?_isSome]
    obtain ⟨m, hm, hcm⟩ := h
    exact ⟨m, hm, hcm⟩
  obtain ⟨m2, hm2⟩ := Option.isSome_iff_exists.mp hsome
  refine ⟨m2, by rw [hm2], ?_⟩
  have h2 := List.find?_some hm2
  exact h2

/-- C3 counterexample: White king a1, Black to move with king b3 and rook
h8.  Black has the mate in one Rh1, but the no-fast-path chooser at
maxDepth 3 returns Rh2 (a mate in two): the ascending move sort places the
mate move (key 10000) last, and the strict-improvement rule keeps the
earlier-sorted Rh2, whose depth-3 value ties at the -10000 mate score.
The oracle exposes the real principal lines of the position (Rh1 mate;
Rh2, Kb1 forced, Rh1 mate); the full-board search over the unrestricted
move list returns the same move Rh2. -/
theorem claim_C3_counterexample :
    (∃ m ∈ Cex.v3Engine.legalMoves Cex.mate1Board,
      (Cex.v3Engine.push Cex.mate1Board m).checkmate = true) ∧
    V3.get_ai_move Cex.v3Engine Cex.mate1Board 3 = some ⟨63, 15⟩ ∧
    (Cex.v3Engine.push Cex.mate1Board ⟨63, 15⟩).checkmate = false := by decide

/-- C3 witness: the amended claim applied to the concrete mate-in-one
position, under the concrete rules engine. -/
theorem claim_C3_witness :
    ∃ m2, V1.get_ai_move RulesKRK.engine Cex.mate1Board 3 Cex.noTimeUp = some m2 ∧
      (RulesKRK.engine.push Cex.mate1Board m2).checkmate = true :=
  claim_C3_amended RulesKRK.engine Cex.mate1Board 3 Cex.noTimeUp
    ⟨⟨63, 7⟩, by decide, by decide⟩

namespace Evals

/-! Helper lemmas about the static evaluators (claims C4, C5, C6). -/

theorem qScore_lt_qScore (a c : ℚ) : qScore a < qScore c ↔ a < c := by
  simp [qScore]

theorem findRook_none (b : Board) (color : Bool)
    (hw : color = true → b.whiteRook = none)
    (hb : color = false → b.blackRook = none) : findRook b color = none := by
  unfold findRook
  rw [List.find?_eq_none]
  intro sq _
  unfold pieceAt
  split_ifs with h1 h2 h3 h4
  · cases color <;> simp
  · cases color <;> simp
  · cases color with
    | true => rw [hw rfl] at h3; cases h3
    | false => simp
  · cases color with
    | true => simp
    | false => rw [hb rfl] at h4; cases h4
  · simp

theorem findRook_mem (b : Board) (color : Bool) (r : Nat)
    (h : findRook b color = some r) : r < 64 := by
  have := List.mem_of_find?_eq_some h
  exact List.mem_range.mp this

end Evals

/-- C4 (amended): when the expected rook is absent from a non-terminal
position, the module-level evaluator (V1, black-rook profile) returns the
neutral score 0, but the `ChessEndgameSolver` evaluator (white-rook
profile) returns the extreme score `-math.inf` instead. -/
theorem claim_C4_amended :
    (∀ b : Board, b.checkmate = false → b.stalemate = false → b.blackRook = none →
      V1.evaluate_board b = 0) ∧
    (∀ b : Board, b.checkmate = false → b.stalemate = false →
      b.insufficientMaterial = false → b.canClaimDraw = false → b.whiteRook = none →
      ChessEndgameSolver.evaluate_board b = ⊥) := by
  constructor
  · intro b h1 h2 hbr
    unfold V1.evaluate_board
    rw [h1, h2, Evals.findRook_none b false (fun h => by cases h) (fun _ => hbr)]
    simp
  · intro b h1 h2 h3 h4 hwr
    unfold ChessEndgameSolver.evaluate_board
    rw [h1, h2, h3, h4, hwr]
    simp

/-- C4 counterexample: a non-terminal position without the white rook the
solver profile expects - the solver evaluator returns `-math.inf`, not the
neutral 0 the claim asserts. -/
theorem claim_C4_counterexample :
    Cex.noWRookBoard.checkmate = false ∧ Cex.noWRookBoard.stalemate = false ∧
    Cex.noWRookBoard.insufficientMaterial = false ∧ Cex.noWRookBoard.canClaimDraw = false ∧
    Cex.noWRookBoard.whiteRook = none ∧
    ChessEndgameSolver.evaluate_board Cex.noWRookBoard = ⊥ ∧
    (⊥ : SScore) ≠ qScore 0 := by decide

/-- C4 witness: the amended claim applied at concrete rookless positions. -/
theorem claim_C4_witness :
    V1.evaluate_board Cex.kkBoard = 0 ∧
    ChessEndgameSolver.evaluate_board Cex.noWRookBoard = ⊥ :=
  ⟨claim_C4_amended.1 Cex.kkBoard rfl rfl rfl,
   claim_C4_amended.2 Cex.noWRookBoard rfl rfl rfl rfl rfl⟩

/-- C5 (amended): stalemate is scored 0 by the V1 evaluator; the solver
evaluator scores stalemate, insufficient material and claimable draws 0;
but the V3 evaluator scores stalemate -500, and the V1 evaluator returns
its ordinary nonzero heuristic on claimable-draw positions (it never
consults the draw-claim or insufficient-material predicates). -/
theorem claim_C5_amended :
    (∀ b : Board, b.checkmate = false → b.stalemate = true → V1.evaluate_board b = 0) ∧
    (∀ b : Board, b.checkmate = false →
      (b.stalemate = true ∨ b.insufficientMaterial = true ∨ b.canClaimDraw = true) →
      ChessEndgameSolver.evaluate_board b = qScore 0) ∧
    (∀ b : Board, b.checkmate = false → b.stalemate = true → V3.evaluate_board b = -500) := by
  refine ⟨?_, ?_, ?_⟩
  · intro b h1 h2
    unfold V1.evaluate_board
    rw [h1, h2]
    simp
  · intro b h1 h2
    unfold ChessEndgameSolver.evaluate_board
    rw [h1]
    rcases h2 with h | h | h <;> rw [h] <;> simp
  · intro b h1 h2
    unfold V3.evaluate_board
    rw [h1, h2]
    simp

/-- C5 counterexample: the V3 evaluator returns -500 on a stalemate, and
the V1 evaluator returns the nonzero heuristic -60 on a non-terminal
claimable-draw position - both contradict "draw positions evaluate to
exactly 0". -/
theorem claim_C5_counterexample :
    (Cex.staleBoard.stalemate = true ∧ Cex.staleBoard.checkmate = false ∧
      V3.evaluate_board Cex.staleBoard = -500) ∧
    (Cex.drawBoard.canClaimDraw = true ∧ Cex.drawBoard.checkmate = false ∧
      Cex.drawBoard.stalemate = false ∧ V1.evaluate_board Cex.drawBoard = -60) := by decide

/-- C5 witness: the amended claim applied at the concrete stalemate. -/
theorem claim_C5_witness :
    V1.evaluate_board Cex.staleBoard = 0 ∧
    ChessEndgameSolver.evaluate_board Cex.staleBoard = qScore 0 ∧
    V3.evaluate_board Cex.staleBoard = -500 :=
  ⟨claim_C5_amended.1 Cex.staleBoard rfl rfl,
   claim_C5_amended.2.1 Cex.staleBoard rfl (Or.inl rfl),
   claim_C5_amended.2.2 Cex.staleBoard rfl rfl⟩

set_option maxHeartbeats 4000000 in
/-- C6 (amended): on non-terminal positions the V1 heuristic is bounded
well below the 10000 mate sentinel, and the solver heuristic lies strictly
between -10000 and 10000 whenever its expected white rook is present (and
not on a1, where the falsiness test misfires); but with the rook absent
the solver returns `-math.inf`, which is not below the sentinel - see the
counterexample. -/
theorem claim_C6_amended :
    (∀ b : Board, b.checkmate = false → b.stalemate = false → b.whiteKing < 64 →
      |V1.evaluate_board b| < 10000) ∧
    (∀ (b : Board) (r : Nat), b.checkmate = false → b.stalemate = false →
      b.insufficientMaterial = false → b.canClaimDraw = false →
      b.whiteRook = some r → r ≠ 0 → r < 64 → b.whiteKing < 64 → b.blackKing < 64 →
      qScore (-10000) < ChessEndgameSolver.evaluate_board b ∧
      ChessEndgameSolver.evaluate_board b < qScore 10000) := by
  constructor
  · intro b h1 h2 hwk
    unfold V1.evaluate_board
    rw [h1, h2]
    rcases hf : findRook b false with _ | br
    · simp [hf]
    · simp only [hf, Bool.false_eq_true, if_false]
      by_cases h0 : br = 0
      · rw [if_pos h0]
        simp
      · rw [if_neg h0, abs_lt]
        unfold sqFile sqRank
        constructor <;> (split_ifs <;> omega)
  · intro b r h1 h2 h3 h4 hr hr0 hr64 hwk hbk
    unfold ChessEndgameSolver.evaluate_board
    rw [h1, h2, h3, h4, hr]
    simp only [Bool.false_eq_true, Bool.or_self, if_false, if_neg hr0]
    have key : ∀ q : ℚ, -10000 < q → q < 10000 →
        qScore (-10000) < qScore q ∧ qScore q < qScore 10000 := fun q hq1 hq2 =>
      ⟨(Evals.qScore_lt_qScore _ _).mpr hq1, (Evals.qScore_lt_qScore _ _).mpr hq2⟩
    apply key
    all_goals
      set RS : ℤ := max |sqFile r - sqFile b.blackKing| |sqRank r - sqRank b.blackKing| with hRS
      set KD : ℤ := max |sqFile b.whiteKing - sqFile b.blackKing|
        |sqRank b.whiteKing - sqRank b.blackKing| with hKD
      have hRS0 : (0 : ℤ) ≤ RS := le_max_of_le_left (abs_nonneg _)
      have hRS7 : RS ≤ 7 := by
        apply max_le <;> (rw [abs_le]; simp only [sqFile, sqRank]; constructor <;> omega)
      have hKD0 : (0 : ℤ) ≤ KD := le_max_of_le_left (abs_nonneg _)
      have hKD7 : KD ≤ 7 := by
        apply max_le <;> (rw [abs_le]; simp only [sqFile, sqRank]; constructor <;> omega)
      have hRSq0 : (0 : ℚ) ≤ (RS : ℚ) := by exact_mod_cast hRS0
      have hRSq7 : (RS : ℚ) ≤ 7 := by exact_mod_cast hRS7
      have hKDq0 : (0 : ℚ) ≤ (KD : ℚ) := by exact_mod_cast hKD0
      have hKDq7 : (KD : ℚ) ≤ 7 := by exact_mod_cast hKD7
      have hx0 : (0 : ℚ) ≤ ((r % 8 : ℕ) : ℚ) := Nat.cast_nonneg _
      have hx7 : ((r % 8 : ℕ) : ℚ) ≤ 7 := by
        have : r % 8 ≤ 7 := by omega
        exact_mod_cast this
      have hy0 : (0 : ℚ) ≤ ((r / 8 : ℕ) : ℚ) := Nat.cast_nonneg _
      have hy7 : ((r / 8 : ℕ) : ℚ) ≤ 7 := by
        have : r / 8 ≤ 7 := by omega
        exact_mod_cast this
      have habs1 : |((r % 8 : ℕ) : ℚ) - 3.5| ≤ 3.5 := by
        rw [abs_le]; constructor <;> linarith
      have habs2 : |((r / 8 : ℕ) : ℚ) - 3.5| ≤ 3.5 := by
        rw [abs_le]; constructor <;> linarith
      have habs1n : (0 : ℚ) ≤ |((r % 8 : ℕ) : ℚ) - 3.5| := abs_nonneg _
      have habs2n : (0 : ℚ) ≤ |((r / 8 : ℕ) : ℚ) - 3.5| := abs_nonneg _
      split_ifs <;> (push_cast; linarith)

/-- C6 counterexample: a non-terminal position with the solver rook absent
evaluates to `-math.inf`, whose magnitude is not below the 10000 sentinel. -/
theorem claim_C6_counterexample :
    Cex.noWRookBoard.checkmate = false ∧ Cex.noWRookBoard.stalemate = false ∧
    Cex.noWRookBoard.insufficientMaterial = false ∧ Cex.noWRookBoard.canClaimDraw = false ∧
    ChessEndgameSolver.evaluate_board Cex.noWRookBoard ≤ qScore (-10000) := by decide

/-- C6 witness: the amended bounds applied at concrete positions. -/
theorem claim_C6_witness :
    |V1.evaluate_board Cex.noWRookBoard| < 10000 ∧
    (qScore (-10000) < ChessEndgameSolver.evaluate_board Cex.solverBoard ∧
      ChessEndgameSolver.evaluate_board Cex.solverBoard < qScore 10000) :=
  ⟨claim_C6_amended.1 Cex.noWRookBoard rfl rfl (by decide),
   claim_C6_amended.2 Cex.solverBoard 9 rfl rfl rfl rfl rfl (by decide) (by decide)
     (by decide) (by decide)⟩

namespace SolverEq

/-! The cached solver search against the cache-free reference search
(claim C9): with no repeated position in the (pruned) search tree, every
table probe misses and the cached search computes the uncached value. -/

theorem ttLookup_none (t : ChessEndgameSolver.TTable) (b : Board)
    (h : ∀ kv ∈ t, kv.1 ≠ b) : ChessEndgameSolver.ttLookup t b = none := by
  unfold ChessEndgameSolver.ttLookup
  have : t.find? (fun kv => decide (kv.1 = b)) = none := by
    rw [List.find?_eq_none]
    intro kv hkv
    simp only [decide_eq_true_eq]
    exact h kv hkv
  rw [this]
  rfl

theorem loopTT_max (e : Engine)
    (recT : Board → ChessEndgameSolver.TTable → SScore → SScore →
      SScore × ChessEndgameSolver.TTable)
    (recV : Board → SScore → SScore → SScore × List Board)
    (hrec : ∀ (b2 : Board) (t2 : ChessEndgameSolver.TTable) (a2 be2 : SScore),
      (recV b2 a2 be2).2.Nodup →
      (∀ kv ∈ t2, kv.1 ∉ (recV b2 a2 be2).2) →
      (recT b2 t2 a2 be2).1 = (recV b2 a2 be2).1 ∧
      (∀ kv ∈ (recT b2 t2 a2 be2).2, kv ∈ t2 ∨ kv.1 ∈ (recV b2 a2 be2).2)) :
    ∀ (L : List Move) (b : Board) (t : ChessEndgameSolver.TTable) (best alpha beta : SScore),
      (ChessEndgameSolver.maxLoopNCV e recV L b best alpha beta).2.Nodup →
      (∀ kv ∈ t, kv.1 ∉ (ChessEndgameSolver.maxLoopNCV e recV L b best alpha beta).2) →
      (ChessEndgameSolver.maxLoopTT e recT L b t best alpha beta).1 =
        (ChessEndgameSolver.maxLoopNCV e recV L b best alpha beta).1 ∧
      (∀ kv ∈ (ChessEndgameSolver.maxLoopTT e recT L b t best alpha beta).2,
        kv ∈ t ∨ kv.1 ∈ (ChessEndgameSolver.maxLoopNCV e recV L b best alpha beta).2) := by
  intro L
  induction L with
  | nil =>
    intro b t best alpha beta _ _
    exact ⟨rfl, fun kv hkv => Or.inl hkv⟩
  | cons m rest ih =>
    intro b t best alpha beta hnd havoid
    simp only [ChessEndgameSolver.maxLoopTT, ChessEndgameSolver.maxLoopNCV] at hnd havoid ⊢
    by_cases hcut : beta ≤ max alpha (recV (e.push b m) alpha beta).1
    · rw [if_pos hcut] at hnd havoid ⊢
      have hc := hrec (e.push b m) t alpha beta hnd havoid
      rw [hc.1, if_pos hcut]
      exact ⟨rfl, fun kv hkv => hc.2 kv hkv⟩
    · rw [if_neg hcut] at hnd havoid ⊢
      rw [List.nodup_append] at hnd
      obtain ⟨hnd1, hnd2, hdisj⟩ := hnd
      have havoid1 : ∀ kv ∈ t, kv.1 ∉ (recV (e.push b m) alpha beta).2 := by
        intro kv hkv hmem
        exact havoid kv hkv (List.mem_append.mpr (Or.inl hmem))
      have hc := hrec (e.push b m) t alpha beta hnd1 havoid1
      rw [hc.1, if_neg hcut]
      have havoid2 : ∀ kv ∈ (recT (e.push b m) t alpha beta).2,
          kv.1 ∉ (ChessEndgameSolver.maxLoopNCV e recV rest b
            (max best (recV (e.push b m) alpha beta).1)
            (max alpha (recV (e.push b m) alpha beta).1) beta).2 := by
        intro kv hkv hmem
        rcases hc.2 kv hkv with hin | hin
        · exact havoid kv hin (List.mem_append.mpr (Or.inr hmem))
        · exact hdisj hin hmem
      have hih := ih b (recT (e.push b m) t alpha beta).2
        (max best (recV (e.push b m) alpha beta).1)
        (max alpha (recV (e.push b m) alpha beta).1) beta hnd2 havoid2
      refine ⟨hih.1, ?_⟩
      intro kv hkv
      rcases hih.2 kv hkv with hin | hin
      · rcases hc.2 kv hin with hin2 | hin2
        · exact Or.inl hin2
        · exact Or.inr (List.mem_append.mpr (Or.inl hin2))
      · exact Or.inr (List.mem_append.mpr (Or.inr hin))

theorem loopTT_min (e : Engine)
    (recT : Board → ChessEndgameSolver.TTable → SScore → SScore →
      SScore × ChessEndgameSolver.TTable)
    (recV : Board → SScore → SScore → SScore × List Board)
    (hrec : ∀ (b2 : Board) (t2 : ChessEndgameSolver.TTable) (a2 be2 : SScore),
      (recV b2 a2 be2).2.Nodup →
      (∀ kv ∈ t2, kv.1 ∉ (recV b2 a2 be2).2) →
      (recT b2 t2 a2 be2).1 = (recV b2 a2 be2).1 ∧
      (∀ kv ∈ (recT b2 t2 a2 be2).2, kv ∈ t2 ∨ kv.1 ∈ (recV b2 a2 be2).2)) :
    ∀ (L : List Move) (b : Board) (t : ChessEndgameSolver.TTable) (best alpha beta : SScore),
      (ChessEndgameSolver.minLoopNCV e recV L b best alpha beta).2.Nodup →
      (∀ kv ∈ t, kv.1 ∉ (ChessEndgameSolver.minLoopNCV e recV L b best alpha beta).2) →
      (ChessEndgameSolver.minLoopTT e recT L b t best alpha beta).1 =
        (ChessEndgameSolver.minLoopNCV e recV L b best alpha beta).1 ∧
      (∀ kv ∈ (ChessEndgameSolver.minLoopTT e recT L b t best alpha beta).2,
        kv ∈ t ∨ kv.1 ∈ (ChessEndgameSolver.minLoopNCV e recV L b best alpha beta).2) := by
  intro L
  induction L with
  | nil =>
    intro b t best alpha beta _ _
    exact ⟨rfl, fun kv hkv => Or.inl hkv⟩
  | cons m rest ih =>
    intro b t best alpha beta hnd havoid
    simp only [ChessEndgameSolver.minLoopTT, ChessEndgameSolver.minLoopNCV] at hnd havoid ⊢
    by_cases hcut : min beta (recV (e.push b m) alpha beta).1 ≤ alpha
    · rw [if_pos hcut] at hnd havoid ⊢
      have hc := hrec (e.push b m) t alpha beta hnd havoid
      rw [hc.1, if_pos hcut]
      exact ⟨rfl, fun kv hkv => hc.2 kv hkv⟩
    · rw [if_neg hcut] at hnd havoid ⊢
      rw [List.nodup_append] at hnd
      obtain ⟨hnd1, hnd2, hdisj⟩ := hnd
      have havoid1 : ∀ kv ∈ t, kv.1 ∉ (recV (e.push b m) alpha beta).2 := by
        intro kv hkv hmem
        exact havoid kv hkv (List.mem_append.mpr (Or.inl hmem))
      have hc := hrec (e.push b m) t alpha beta hnd1 havoid1
      rw [hc.1, if_neg hcut]
      have havoid2 : ∀ kv ∈ (recT (e.push b m) t alpha beta).2,
          kv.1 ∉ (ChessEndgameSolver.minLoopNCV e recV rest b
            (min best (recV (e.push b m) alpha beta).1) alpha
            (min beta (recV (e.push b m) alpha beta).1)).2 := by
        intro kv hkv hmem
        rcases hc.2 kv hkv with hin | hin
        · exact havoid kv hin (List.mem_append.mpr (Or.inr hmem))
        · exact hdisj hin hmem
      have hih := ih b (recT (e.push b m) t alpha beta).2
        (min best (recV (e.push b m) alpha beta).1) alpha
        (min beta (recV (e.push b m) alpha beta).1) hnd2 havoid2
      refine ⟨hih.1, ?_⟩
      intro kv hkv
      rcases hih.2 kv hkv with hin | hin
      · rcases hc.2 kv hin with hin2 | hin2
        · exact Or.inl hin2
        · exact Or.inr (List.mem_append.mpr (Or.inl hin2))
      · exact Or.inr (List.mem_append.mpr (Or.inr hin))

theorem minimax_no_repeat (e : Engine) :
    ∀ (d : Nat) (b : Board) (t : ChessEndgameSolver.TTable) (alpha beta : SScore) (p : Bool),
      (ChessEndgameSolver.minimaxNCV e d b alpha beta p).2.Nodup →
      (∀ kv ∈ t, kv.1 ∉ (ChessEndgameSolver.minimaxNCV e d b alpha beta p).2) →
      (ChessEndgameSolver.minimax e d b t alpha beta p).1 =
        (ChessEndgameSolver.minimaxNCV e d b alpha beta p).1 ∧
      (∀ kv ∈ (ChessEndgameSolver.minimax e d b t alpha beta p).2,
        kv ∈ t ∨ kv.1 ∈ (ChessEndgameSolver.minimaxNCV e d b alpha beta p).2) := by
  intro d
  induction d with
  | zero =>
    intro b t alpha beta p hnd havoid
    simp only [ChessEndgameSolver.minimaxNCV] at havoid ⊢
    have hmiss : ChessEndgameSolver.ttLookup t b = none :=
      ttLookup_none t b (fun kv hkv heq =>
        havoid kv hkv (heq ▸ List.mem_singleton.mpr rfl))
    simp only [ChessEndgameSolver.minimax, hmiss]
    refine ⟨by trivial, ?_⟩
    intro kv hkv
    rcases List.mem_cons.mp hkv with h | h
    · exact Or.inr (by rw [h]; exact List.mem_singleton.mpr rfl)
    · exact Or.inl h
  | succ d ih =>
    intro b t alpha beta p hnd havoid
    by_cases hgo : b.gameOver
    · simp only [ChessEndgameSolver.minimaxNCV, if_pos hgo] at havoid ⊢
      have hmiss : ChessEndgameSolver.ttLookup t b = none :=
        ttLookup_none t b (fun kv hkv heq =>
          havoid kv hkv (heq ▸ List.mem_singleton.mpr rfl))
      simp only [ChessEndgameSolver.minimax, hmiss, if_pos hgo]
      refine ⟨by trivial, ?_⟩
      intro kv hkv
      rcases List.mem_cons.mp hkv with h | h
      · exact Or.inr (by rw [h]; exact List.mem_singleton.mpr rfl)
      · exact Or.inl h
    · simp only [ChessEndgameSolver.minimaxNCV, if_neg hgo] at hnd havoid ⊢
      cases p with
      | true =>
        simp only [eq_self_iff_true, if_true] at hnd havoid ⊢
        rw [List.nodup_cons] at hnd
        have hmiss : ChessEndgameSolver.ttLookup t b = none :=
          ttLookup_none t b (fun kv hkv heq =>
            havoid kv hkv (heq ▸ List.mem_cons_self b _))
        simp only [ChessEndgameSolver.minimax, hmiss, if_neg hgo, eq_self_iff_true, if_true]
        have hloop := loopTT_max e
          (fun b2 t2 a2 be2 => ChessEndgameSolver.minimax e d b2 t2 a2 be2 false)
          (fun b2 a2 be2 => ChessEndgameSolver.minimaxNCV e d b2 a2 be2 false)
          (fun b2 t2 a2 be2 h1 h2 => ih b2 t2 a2 be2 false h1 h2)
          (e.legalMoves b) b t ⊥ alpha beta hnd.2
          (fun kv hkv hmem => havoid kv hkv (List.mem_cons_of_mem b hmem))
        refine ⟨hloop.1, ?_⟩
        intro kv hkv
        rcases List.mem_cons.mp hkv with h | h
        · exact Or.inr (by rw [h]; exact List.mem_cons_self b _)
        · rcases hloop.2 kv h with hin | hin
          · exact Or.inl hin
          · exact Or.inr (List.mem_cons_of_mem b hin)
      | false =>
        simp only [Bool.false_eq_true, if_false] at hnd havoid ⊢
        rw [List.nodup_cons] at hnd
        have hmiss : ChessEndgameSolver.ttLookup t b = none :=
          ttLookup_none t b (fun kv hkv heq =>
            havoid kv hkv (heq ▸ List.mem_cons_self b _))
        simp only [ChessEndgameSolver.minimax, hmiss, if_neg hgo, Bool.false_eq_true, if_false]
        have hloop := loopTT_min e
          (fun b2 t2 a2 be2 => ChessEndgameSolver.minimax e d b2 t2 a2 be2 true)
          (fun b2 a2 be2 => ChessEndgameSolver.minimaxNCV e d b2 a2 be2 true)
          (fun b2 t2 a2 be2 h1 h2 => ih b2 t2 a2 be2 true h1 h2)
          (e.legalMoves b) b t ⊤ alpha beta hnd.2
          (fun kv hkv hmem => havoid kv hkv (List.mem_cons_of_mem b hmem))
        refine ⟨hloop.1, ?_⟩
        intro kv hkv
        rcases List.mem_cons.mp hkv with h | h
        · exact Or.inr (by rw [h]; exact List.mem_cons_self b _)
        · rcases hloop.2 kv h with hin | hin
          · exact Or.inl hin
          · exact Or.inr (List.mem_cons_of_mem b hin)

end SolverEq

/-- C9 (amended): a stored entry is substituted only when its stored depth
is at least the requested depth - as the code's probe condition states -
and when no position repeats in the search tree, the cached search started
on the empty table computes exactly the uncached value; the unrestricted
value equality of the claim fails, see the counterexample. -/
theorem claim_C9_amended (e : Engine) (d : Nat) (b : Board) (alpha beta : SScore) (p : Bool)
    (h : (ChessEndgameSolver.minimaxNCV e d b alpha beta p).2.Nodup) :
    (ChessEndgameSolver.minimax e d b [] alpha beta p).1 =
      ChessEndgameSolver.minimaxNC e d b alpha beta p :=
  (SolverEq.minimax_no_repeat e d b [] alpha beta p h (fun kv hkv => absurd hkv
    (List.not_mem_nil kv))).1

/-- C9 counterexample: a three-ply tree that reaches the same position one
ply below the root (stored at depth 2) and three plies below (probed at
depth 0): the cached search substitutes the deep entry - with its value
from an earlier window and maximizing context - and returns `-inf`, while
the identical search without the cache returns the finite heuristic. -/
theorem claim_C9_counterexample :
    (ChessEndgameSolver.minimax Cex.c9Engine 3 Cex.c9Root [] ⊥ ⊤ true).1 ≠
      ChessEndgameSolver.minimaxNC Cex.c9Engine 3 Cex.c9Root ⊥ ⊤ true := by decide

/-- C9 witness: the amended equality applied to a concrete engine whose
one-move search tree visits each position once. -/
theorem claim_C9_witness :
    (ChessEndgameSolver.minimax Cex.wEngine 1 Cex.liveBoard [] ⊥ ⊤ true).1 =
      ChessEndgameSolver.minimaxNC Cex.wEngine 1 Cex.liveBoard ⊥ ⊤ true :=
  claim_C9_amended Cex.wEngine 1 Cex.liveBoard ⊥ ⊤ true (by decide)

end KRK
